import Mathlib

/-!
# squidOS libc: `libs/libc/include/stdio.h`

A verification development over the standard I/O header of squidOS.

The header is 47 lines of macros and function declarations.  Part I embeds
those declarations as data.  The bodies of the declared functions are not in
the header; Parts II to IV model the sink, the format engine, the scan engine
and the buffered stream from the specification of the library, and each such
definition says so in its doc comment.
-/

namespace Stdio

/-! ## Part I: the header -/

/-- A C type as it is spelled in the declarations of `stdio.h`.
`file` is the typedef name `FILE` (line 7: `typedef void FILE;`). -/
inductive CType where
  | void
  | char
  | int
  | long
  | size_t
  | va_list
  | file
  | const (t : CType)
  | ptr (t : CType)
  deriving DecidableEq

/-- One parameter of a declared function: its type and its name. -/
structure Param where
  type : CType
  name : String
  deriving DecidableEq

/-- One function declaration of the header: return type, name, named
parameters, and whether the parameter list ends in `...`. -/
structure Decl where
  ret : CType
  name : String
  params : List Param
  variadic : Bool
  deriving DecidableEq

/-- The type `const char *`. -/
def constCharPtr : CType := .ptr (.const .char)

/-- The type `FILE *`. -/
def filePtrType : CType := .ptr .file

/-- The function declarations of `stdio.h`, lines 17 to 41, in source order. -/
def declarations : List Decl :=
  [ ⟨.int, "printf", [⟨constCharPtr, "format"⟩], true⟩,
    ⟨.int, "fprintf", [⟨filePtrType, "stream"⟩, ⟨constCharPtr, "format"⟩], true⟩,
    ⟨.int, "sprintf", [⟨.ptr .char, "str"⟩, ⟨constCharPtr, "format"⟩], true⟩,
    ⟨.int, "vfprintf",
      [⟨filePtrType, "stream"⟩, ⟨constCharPtr, "format"⟩, ⟨.va_list, "ap"⟩], false⟩,
    ⟨.int, "vprintf", [⟨constCharPtr, "format"⟩, ⟨.va_list, "ap"⟩], false⟩,
    ⟨.int, "snprintf",
      [⟨.ptr .char, "str"⟩, ⟨.size_t, "size"⟩, ⟨constCharPtr, "format"⟩], true⟩,
    ⟨.int, "vsnprintf",
      [⟨.ptr .char, "str"⟩, ⟨.size_t, "size"⟩, ⟨constCharPtr, "format"⟩,
       ⟨.va_list, "ap"⟩], false⟩,
    ⟨.int, "sscanf", [⟨constCharPtr, "str"⟩, ⟨constCharPtr, "format"⟩], true⟩,
    ⟨.int, "krake_debug_printf", [⟨constCharPtr, "format"⟩], true⟩,
    ⟨.int, "putchar", [⟨.int, "c"⟩], false⟩,
    ⟨.int, "puts", [⟨constCharPtr, "s"⟩], false⟩,
    ⟨.int, "putc", [⟨.int, "c"⟩, ⟨filePtrType, "stream"⟩], false⟩,
    ⟨.int, "fflush", [⟨filePtrType, "stream"⟩], false⟩,
    ⟨.int, "remove", [⟨constCharPtr, "pathname"⟩], false⟩,
    ⟨.int, "rename", [⟨constCharPtr, "oldpath"⟩, ⟨constCharPtr, "newpath"⟩], false⟩,
    ⟨filePtrType, "fopen", [⟨constCharPtr, "filename"⟩, ⟨constCharPtr, "mode"⟩], false⟩,
    ⟨filePtrType, "fdopen", [⟨.int, "fd"⟩, ⟨constCharPtr, "mode"⟩], false⟩,
    ⟨.int, "fclose", [⟨filePtrType, "stream"⟩], false⟩,
    ⟨.size_t, "fread",
      [⟨.ptr .void, "ptr"⟩, ⟨.size_t, "size"⟩, ⟨.size_t, "nmemb"⟩,
       ⟨filePtrType, "stream"⟩], false⟩,
    ⟨.size_t, "fwrite",
      [⟨.ptr (.const .void), "ptr"⟩, ⟨.size_t, "size"⟩, ⟨.size_t, "nmemb"⟩,
       ⟨filePtrType, "stream"⟩], false⟩,
    ⟨.int, "fseek", [⟨filePtrType, "stream"⟩, ⟨.long, "offset"⟩, ⟨.int, "whence"⟩], false⟩,
    ⟨.long, "ftell", [⟨filePtrType, "stream"⟩], false⟩,
    ⟨.int, "ferror", [⟨filePtrType, "stream"⟩], false⟩,
    ⟨.int, "getc", [⟨filePtrType, "stream"⟩], false⟩ ]

/-- The names the header declares, in source order. -/
def declaredNames : List String := declarations.map Decl.name

/-- The declaration of a given name, when the header has one. -/
def findDecl (n : String) : Option Decl := declarations.find? (fun d => d.name == n)

/-- The signature of a declaration: everything but the names. -/
def Decl.signature (d : Decl) : CType × List CType × Bool :=
  (d.ret, d.params.map Param.type, d.variadic)

/-- A value of type `FILE *`, by its numeric value. -/
structure FilePtr where
  addr : Nat
  deriving DecidableEq

/-- Line 9: `#define stderr ((FILE*)2)`. -/
def stderr : FilePtr := ⟨2⟩

/-- Line 10: `#define stdout ((FILE*)1)`. -/
def stdout : FilePtr := ⟨1⟩

/-- Line 11: `#define stdin  ((FILE*)0)`. -/
def stdin : FilePtr := ⟨0⟩

/-- Line 13: `#define EOF (-1)`. -/
def EOF : Int := -1

/-- Line 14: `#define P_tmpdir "/tmp"`. -/
def P_tmpdir : String := "/tmp"

/-- Line 15: `#define BUFSIZ 8192`. -/
def BUFSIZ : Nat := 8192

/-- Line 43: `#define SEEK_SET 0`. -/
def SEEK_SET : Int := 0

/-- Line 44: `#define SEEK_CUR 1`. -/
def SEEK_CUR : Int := 1

/-- Line 45: `#define SEEK_END 2`. -/
def SEEK_END : Int := 2

/-- Modelled from the spec: the body of `fopen` and `fdopen` is not in the
header, which only declares them with return type `FILE *`.  The spec (section
7, OpenError) has a failed open "signaled as a null handle": the `FILE *` of
numeric value 0. -/
def nullHandle : FilePtr := ⟨0⟩

/-- The names the spec lists as the interface of the library (section 6). -/
def specNames : List String :=
  [ "printf", "fprintf", "sprintf", "vfprintf", "vprintf", "snprintf", "vsnprintf",
    "sscanf", "putchar", "puts", "putc", "fflush", "remove", "rename", "fopen",
    "fdopen", "fclose", "fread", "fwrite", "fseek", "ftell", "ferror", "getc",
    "krake_debug_printf" ]

/-! ## Part II: tagged values, conversion specs and the format engine

The bodies of `printf`, `sprintf`, `snprintf`, `sscanf` and of the stream
functions are not in the header.  The definitions below follow sections 3, 4
and 9 of the specification. -/

/-- Modelled from the spec: a floating-point value (the bodies that handle
floats are absent from the header).  A finite binary floating-point number has
a finite decimal expansion, so it is kept by its exact value
`(-1)^neg * mant / 10^scale`; infinities and NaN are left out, and no binary
rounding is modelled. -/
structure Dec where
  neg : Bool
  mant : Nat
  scale : Nat
  deriving DecidableEq

/-- Modelled from the spec: the variadic arguments, absent from the header as
values, "an explicit ordered sequence of tagged values (type tag + payload)"
(section 9).  `int` carries any integer or character argument, `ptr` a
pointer (also the target of `%n`). -/
inductive Arg where
  | int (v : Int)
  | flt (v : Dec)
  | str (s : List Char)
  | ptr (a : Nat)
  deriving DecidableEq

/-- Modelled from the spec: the flag set `-`, `+`, `0`, space, `#` of a
conversion spec (section 3); the parser of the absent engine fills it. -/
structure Flags where
  left : Bool
  plus : Bool
  zero : Bool
  space : Bool
  alt : Bool
  deriving DecidableEq

/-- Modelled from the spec: the empty flag set, from which the absent parser
starts. -/
def Flags.empty : Flags := ⟨false, false, false, false, false⟩

/-- Modelled from the spec: a width or a precision of the absent engine:
absent, a literal, or `*` "taken from the next argument" (section 3). -/
inductive Count where
  | absent
  | lit (n : Nat)
  | star
  deriving DecidableEq

/-- Modelled from the spec: the length modifiers of the absent engine,
"short/long/long-long/size/pointer-sized" (section 3): `h`, `l`, `ll`, `z`,
`t`, or none. -/
inductive LenMod where
  | dflt
  | h
  | l
  | ll
  | z
  | t
  deriving DecidableEq

/-- Modelled from the spec: the conversion spec of section 3, internal to the
absent engines: flags, width, precision, length modifier and the conversion
character. -/
structure Spec where
  flags : Flags
  width : Count
  prec : Count
  len : LenMod
  conv : Char
  deriving DecidableEq

/-- Modelled from the spec: one item of a format string of the absent engines
(section 2: "a sequence of literal spans and conversion specs"); `bad` is a
format that ends inside a conversion spec. -/
inductive Directive where
  | lit (c : Char)
  | conv (s : Spec)
  | bad
  deriving DecidableEq

/-- Modelled from the spec: the flags of a conversion spec, read first by the
absent parser ("parse flags, width, precision, length modifier, then the
conversion character, in that fixed grammar order", section 4.3). -/
def parseFlags : Flags → List Char → Flags × List Char
  | f, [] => (f, [])
  | f, c :: cs =>
    if c = '-' then parseFlags { f with left := true } cs
    else if c = '+' then parseFlags { f with plus := true } cs
    else if c = '0' then parseFlags { f with zero := true } cs
    else if c = ' ' then parseFlags { f with space := true } cs
    else if c = '#' then parseFlags { f with alt := true } cs
    else (f, c :: cs)

/-- Modelled from the spec: a decimal digit character, as the absent parser
tests it. -/
def isDigit (c : Char) : Bool := decide (48 ≤ c.toNat) && decide (c.toNat ≤ 57)

/-- Modelled from the spec: the decimal number at the head of a format, read
by the absent parser for a literal width or precision. -/
def parseNum : Nat → List Char → Nat × List Char
  | acc, [] => (acc, [])
  | acc, c :: cs =>
    if isDigit c then parseNum (acc * 10 + (c.toNat - 48)) cs else (acc, c :: cs)

/-- Modelled from the spec: the width of a conversion spec in the absent
parser: `*`, a literal, or absent. -/
def parseWidth : List Char → Count × List Char
  | [] => (.absent, [])
  | c :: cs =>
    if c = '*' then (.star, cs)
    else if isDigit c then (.lit (parseNum 0 (c :: cs)).1, (parseNum 0 (c :: cs)).2)
    else (.absent, c :: cs)

/-- Modelled from the spec: the precision of a conversion spec in the absent
parser: `.` followed by `*` or by a literal (no digit is 0), or absent. -/
def parsePrec : List Char → Count × List Char
  | [] => (.absent, [])
  | c :: cs =>
    if c = '.' then
      match cs with
      | [] => (.lit 0, [])
      | d :: ds =>
        if d = '*' then (.star, ds)
        else (.lit (parseNum 0 (d :: ds)).1, (parseNum 0 (d :: ds)).2)
    else (.absent, c :: cs)

/-- Modelled from the spec: the length modifier of a conversion spec in the
absent parser. -/
def parseLen : List Char → LenMod × List Char
  | [] => (.dflt, [])
  | c :: cs =>
    if c = 'h' then (.h, cs)
    else if c = 'z' then (.z, cs)
    else if c = 't' then (.t, cs)
    else if c = 'l' then
      match cs with
      | [] => (.l, [])
      | d :: ds => if d = 'l' then (.ll, ds) else (.l, d :: ds)
    else (.dflt, c :: cs)

/-- Modelled from the spec: the conversion spec that follows a `%`, as the
absent parser reads it, with the number of characters it takes; `none` when
the format ends before the conversion character. -/
def parseSpec (cs : List Char) : Option (Spec × Nat) :=
  let r1 := parseFlags Flags.empty cs
  let r2 := parseWidth r1.2
  let r3 := parsePrec r2.2
  let r4 := parseLen r3.2
  match r4.2 with
  | [] => none
  | c :: rest => some (⟨r1.1, r2.1, r3.1, r4.1, c⟩, cs.length - rest.length)

/-- Modelled from the spec: the absent engine "scan[s] the format string left
to right" (section 4.3) into literal characters and conversion specs.  The
first argument counts the characters of the current conversion spec still to
be passed over. -/
def directivesFrom : Nat → List Char → List Directive
  | _, [] => []
  | k + 1, _ :: cs => directivesFrom k cs
  | 0, c :: cs =>
    if c = '%' then
      match parseSpec cs with
      | some (s, n) => .conv s :: directivesFrom n cs
      | none => [.bad]
    else .lit c :: directivesFrom 0 cs

/-- Modelled from the spec: the directives of a format string, for the absent
format and scan engines. -/
def directives (fmt : List Char) : List Directive := directivesFrom 0 fmt

/-- Modelled from the spec: the bit width of the integer type a length
modifier selects; the header fixes none, the model takes `int` at 32 bits,
`short` at 16 and `long`, `long long`, `size_t`, `ptrdiff_t` at 64. -/
def LenMod.bits : LenMod → Nat
  | .dflt => 32
  | .h => 16
  | .l => 64
  | .ll => 64
  | .z => 64
  | .t => 64

/-- Modelled from the spec: an integer argument seen as an unsigned machine
integer of `w` bits by the absent engines. -/
def wrapUnsigned (w : Nat) (v : Int) : Nat := (v % 2 ^ w).toNat

/-- Modelled from the spec: an integer argument seen as a signed machine
integer of `w` bits (two's complement) by the absent engines. -/
def wrapSigned (w : Nat) (v : Int) : Int :=
  if v % 2 ^ w < 2 ^ (w - 1) then v % 2 ^ w else v % 2 ^ w - 2 ^ w

/-- Modelled from the spec: the character of one digit in the absent engine,
`0`-`9` then `a`-`z` or `A`-`Z`. -/
def digitChar (upper : Bool) (d : Nat) : Char :=
  if d < 10 then Char.ofNat (48 + d)
  else if upper then Char.ofNat (55 + d) else Char.ofNat (87 + d)

/-- Modelled from the spec: "render magnitude in target base" (section 4.3),
most significant digit first; the first argument bounds the number of
divisions. -/
def digitsFuel (base : Nat) (upper : Bool) : Nat → Nat → List Char
  | 0, n => [digitChar upper (n % base)]
  | fuel + 1, n =>
    if n < base then [digitChar upper n]
    else digitsFuel base upper fuel (n / base) ++ [digitChar upper (n % base)]

/-- Modelled from the spec: the digits of a magnitude in a base, for the
absent engine; `n` divisions are enough for `n`. -/
def natDigits (base : Nat) (upper : Bool) (n : Nat) : List Char :=
  digitsFuel base upper n n

/-- Modelled from the spec: a run of padding characters of the absent
engine. -/
def pad (c : Char) (n : Nat) : List Char := List.replicate n c

/-- Modelled from the spec: digits "zero-extended" to a minimum count
(section 4.3). -/
def zeroExtend (n : Nat) (ds : List Char) : List Char := pad '0' (n - ds.length) ++ ds

/-- Modelled from the spec: "apply sign per flags (`+` forces sign, space
reserves a slot for it)" (section 4.3). -/
def signChars (f : Flags) (neg : Bool) : List Char :=
  if neg then ['-'] else if f.plus then ['+'] else if f.space then [' '] else []

/-- Modelled from the spec: "pad to width with space or zero per flags and per
left/right justification (`-` left-justifies; zero-padding is ignored when
left-justified ...)" (section 4.3).  `head` is the sign and base mark, behind
which zero padding goes; `zeroOk` says whether the conversion accepts it. -/
def layout (f : Flags) (width : Nat) (zeroOk : Bool) (head body : List Char) : List Char :=
  if f.left then head ++ body ++ pad ' ' (width - (head.length + body.length))
  else if f.zero && zeroOk then head ++ pad '0' (width - (head.length + body.length)) ++ body
  else pad ' ' (width - (head.length + body.length)) ++ head ++ body

/-- Modelled from the spec: the `#` alternate form of the absent engine,
"leading `0` for octal, `0x`/`0X` for hex" (section 4.3); as in C the octal
mark is left out when the digits start with `0` already and the hex mark when
the value is 0. -/
def altMark (f : Flags) (base : Nat) (upper : Bool) (mag : Nat) (ds : List Char) : List Char :=
  if f.alt then
    if base = 8 then (if ds.head? = some '0' then [] else ['0'])
    else if base = 16 ∧ mag ≠ 0 then ['0', if upper then 'X' else 'x']
    else []
  else []

/-- Modelled from the spec: an integer conversion of the absent engine
(section 4.3): the argument is taken at the width of the length modifier,
its magnitude rendered in the base, zero-extended to the precision, signed
and marked, then padded; "zero-padding is ignored ... when precision is given
for integers". -/
def renderInt (signed : Bool) (base : Nat) (upper : Bool) (f : Flags) (width : Nat)
    (prec : Option Nat) (len : LenMod) (v : Int) : List Char :=
  let neg : Bool := signed && decide (wrapSigned len.bits v < 0)
  let mag : Nat := if signed then (wrapSigned len.bits v).natAbs else wrapUnsigned len.bits v
  let ds := zeroExtend (prec.getD 0) (natDigits base upper mag)
  let head := (if signed then signChars f neg else []) ++ altMark f base upper mag ds
  layout f width prec.isNone head ds

/-- Modelled from the spec: the quotient of `a` by `b` with "round-half-to-even"
(section 4.3 asks the absent engine to pick one rounding; the model picks
this one). -/
def divRound (a b : Nat) : Nat :=
  if b < 2 * (a % b) ∨ (2 * (a % b) = b ∧ (a / b) % 2 = 1) then a / b + 1 else a / b

/-- Modelled from the spec: the magnitude of a float times `10^p`, rounded to
an integer: the digits a fixed-point conversion of precision `p` retains in
the absent engine. -/
def Dec.scaled (v : Dec) (p : Nat) : Nat :=
  if v.scale ≤ p then v.mant * 10 ^ (p - v.scale)
  else divRound v.mant (10 ^ (v.scale - p))

/-- Modelled from the spec: the mark of the fractional point and the fraction
digits of the absent engine: "precision 0 suppresses the fractional point
unless `#` is set" (section 4.3). -/
def fractionChars (alt : Bool) (p : Nat) (ds : List Char) : List Char :=
  if p = 0 then (if alt then ['.'] else []) else '.' :: ds

/-- Modelled from the spec: the fixed-point form of a magnitude in the absent
engine (section 4.3): integer digits, then the fraction at the precision. -/
def fixedDigits (alt : Bool) (p : Nat) (v : Dec) : List Char :=
  natDigits 10 false (v.scaled p / 10 ^ p) ++
    fractionChars alt p (zeroExtend p (natDigits 10 false (v.scaled p % 10 ^ p)))

/-- Modelled from the spec: the `p + 1` significant digits and the decimal
exponent of a magnitude, for the exponential form of the absent engine; a
mantissa that rounds up to `10^(p+1)` moves the exponent by one. -/
def Dec.expForm (v : Dec) (p : Nat) : Nat × Int :=
  if v.mant = 0 then (0, 0)
  else
    let nd := (natDigits 10 false v.mant).length
    let m := if nd ≤ p + 1 then v.mant * 10 ^ (p + 1 - nd)
      else divRound v.mant (10 ^ (nd - (p + 1)))
    if m = 10 ^ (p + 1) then (10 ^ p, (nd : Int) - v.scale) else (m, (nd : Int) - 1 - v.scale)

/-- Modelled from the spec: the mantissa text of the exponential form in the
absent engine: one digit, the fractional point, `p` digits. -/
def expMantissa (alt : Bool) (p : Nat) (v : Dec) : List Char :=
  (zeroExtend (p + 1) (natDigits 10 false (v.expForm p).1)).take 1 ++
    fractionChars alt p ((zeroExtend (p + 1) (natDigits 10 false (v.expForm p).1)).drop 1)

/-- Modelled from the spec: the exponent text of the exponential form in the
absent engine: `e` or `E`, a sign, at least two digits. -/
def expSuffix (upper : Bool) (p : Nat) (v : Dec) : List Char :=
  [if upper then 'E' else 'e', if (v.expForm p).2 < 0 then '-' else '+'] ++
    zeroExtend 2 (natDigits 10 false (v.expForm p).2.natAbs)

/-- Modelled from the spec: the shortest form of the absent engine drops the
trailing zeros of a fraction, and the fractional point when no fraction is
left. -/
def stripZeros (ds : List Char) : List Char :=
  if '.' ∈ ds then
    if (ds.reverse.dropWhile (fun c => c == '0')).head? = some '.' then
      ((ds.reverse.dropWhile (fun c => c == '0')).drop 1).reverse
    else (ds.reverse.dropWhile (fun c => c == '0')).reverse
  else ds

/-- Modelled from the spec: the "shortest form" of the absent engine (section
3), as C defines `%g`: with `P` the precision (1 for 0) and `X` the exponent
of the exponential form, fixed form of precision `P - 1 - X` when
`-4 ≤ X < P` and exponential form of precision `P - 1` otherwise, trailing
zeros dropped unless `#` is set. -/
def shortestDigits (alt upper : Bool) (p : Nat) (v : Dec) : List Char :=
  let P := if p = 0 then 1 else p
  let x := (v.expForm (P - 1)).2
  if -4 ≤ x ∧ x < P then
    if alt then fixedDigits alt ((P : Int) - 1 - x).toNat v
    else stripZeros (fixedDigits alt ((P : Int) - 1 - x).toNat v)
  else
    (if alt then expMantissa alt (P - 1) v else stripZeros (expMantissa alt (P - 1) v)) ++
      expSuffix upper (P - 1) v

/-- Modelled from the spec: a floating-point conversion of the absent engine
(section 4.3): "default precision 6 when unspecified", the form chosen by the
conversion character, the sign per the flags, then the padding. -/
def renderFloat (c : Char) (f : Flags) (width : Nat) (prec : Option Nat) (v : Dec) :
    List Char :=
  let p := prec.getD 6
  let body :=
    if c = 'f' ∨ c = 'F' then fixedDigits f.alt p v
    else if c = 'e' then expMantissa f.alt p v ++ expSuffix false p v
    else if c = 'E' then expMantissa f.alt p v ++ expSuffix true p v
    else shortestDigits f.alt (c == 'G') p v
  layout f width true (signChars f v.neg) body

/-- Modelled from the spec: the text the absent engine renders for one
argument under a conversion character (section 4.3): integer conversions in
bases 10, 8 and 16, floating point, "string: copy up to precision bytes (full
string if precision absent), width-pad", character and pointer.  `none` when
the tag of the argument does not fit the conversion. -/
def renderValue (c : Char) (f : Flags) (width : Nat) (prec : Option Nat) (len : LenMod) :
    Arg → Option (List Char)
  | .int v =>
    if c = 'd' ∨ c = 'i' then some (renderInt true 10 false f width prec len v)
    else if c = 'u' then some (renderInt false 10 false f width prec len v)
    else if c = 'o' then some (renderInt false 8 false f width prec len v)
    else if c = 'x' then some (renderInt false 16 false f width prec len v)
    else if c = 'X' then some (renderInt false 16 true f width prec len v)
    else if c = 'c' then some (layout f width false [] [Char.ofNat (wrapUnsigned 8 v)])
    else none
  | .flt v =>
    if c = 'f' ∨ c = 'F' ∨ c = 'e' ∨ c = 'E' ∨ c = 'g' ∨ c = 'G' then
      some (renderFloat c f width prec v)
    else none
  | .str s =>
    if c = 's' then
      some (layout f width false []
        (match prec with
         | some p => s.take p
         | none => s))
    else none
  | .ptr a =>
    if c = 'p' then some (layout f width false ['0', 'x'] (natDigits 16 false a))
    else none

/-- Modelled from the spec: the conversion characters of the absent engine
that render the next argument. -/
def isValueConv (c : Char) : Bool :=
  c ∈ ['d', 'i', 'u', 'o', 'x', 'X', 'f', 'F', 'e', 'E', 'g', 'G', 's', 'c', 'p']

/-- Modelled from the spec: the running state of the absent format engine over
a sink: the sink, the number of bytes emitted so far, the arguments not yet
consumed, and the counts `%n` stored (address and value). -/
structure Engine (σ : Type) where
  sink : σ
  count : Nat
  args : List Arg
  stores : List (Nat × Nat)

/-- Modelled from the spec: the absent engine forwards a rendered byte run to
the sink (section 4.3) and counts it. -/
def Engine.emit {σ : Type} (put : σ → Char → σ) (e : Engine σ) (cs : List Char) : Engine σ :=
  { e with sink := cs.foldl put e.sink, count := e.count + cs.length }

/-- Modelled from the spec: a width `*` "taken from the next argument"
(section 3) in the absent engine; as in C a negative one left-justifies.  An
argument that is not an integer is left in place and gives no width. -/
def resolveWidth (s : Spec) (args : List Arg) : Flags × Nat × List Arg :=
  match s.width with
  | .absent => (s.flags, 0, args)
  | .lit n => (s.flags, n, args)
  | .star =>
    match args with
    | .int w :: rest =>
      if w < 0 then ({ s.flags with left := true }, w.natAbs, rest) else (s.flags, w.natAbs, rest)
    | _ => (s.flags, 0, args)

/-- Modelled from the spec: a precision `*` taken from the next argument in
the absent engine; as in C a negative one counts as absent. -/
def resolvePrec (s : Spec) (args : List Arg) : Option Nat × List Arg :=
  match s.prec with
  | .absent => (none, args)
  | .lit n => (some n, args)
  | .star =>
    match args with
    | .int p :: rest => if p < 0 then (none, rest) else (some p.natAbs, rest)
    | _ => (none, args)

/-- Modelled from the spec: one conversion of the absent engine (section 4.3).
Width and precision `*` consume their arguments first; `%%` emits a percent
sign; `%n` "writes the number of bytes emitted so far into the next argument";
a value conversion renders the next argument; for an unrecognized conversion
character the model takes the permissive choice the spec allows, "emit the
literal character and continue".  An absent or wrongly tagged argument
(undefined in C) emits nothing and stays in place. -/
def stepConv {σ : Type} (put : σ → Char → σ) (e : Engine σ) (s : Spec) : Engine σ :=
  let w := resolveWidth s e.args
  let p := resolvePrec s w.2.2
  if s.conv = '%' then ({ e with args := p.2 }).emit put ['%']
  else if s.conv = 'n' then
    match p.2 with
    | .ptr a :: rest => { e with args := rest, stores := e.stores ++ [(a, e.count)] }
    | _ => { e with args := p.2 }
  else if isValueConv s.conv then
    match p.2 with
    | [] => { e with args := p.2 }
    | a :: rest =>
      match renderValue s.conv w.1 w.2.1 p.1 s.len a with
      | some cs => ({ e with args := rest }).emit put cs
      | none => { e with args := p.2 }
  else ({ e with args := p.2 }).emit put [s.conv]

/-- Modelled from the spec: one directive of the absent engine: "literal bytes
are forwarded verbatim to the Sink" (section 4.3), a conversion is rendered,
and a format that ends inside a conversion spec emits nothing. -/
def step {σ : Type} (put : σ → Char → σ) (e : Engine σ) : Directive → Engine σ
  | .lit c => e.emit put [c]
  | .conv s => stepConv put e s
  | .bad => e

/-- Modelled from the spec: the absent format engine behind `printf`,
`fprintf`, `sprintf`, `snprintf` and their `v` variants (section 4.3), over
any sink: it runs the directives of the format from left to right. -/
def vformat {σ : Type} (put : σ → Char → σ) (s0 : σ) (fmt : List Char) (args : List Arg) :
    Engine σ :=
  (directives fmt).foldl (step put) ⟨s0, 0, args, []⟩

/-- Modelled from the spec: the formatted output itself, that is the absent
engine over the sink that keeps every byte. -/
def render (fmt : List Char) (args : List Arg) : List Char :=
  (vformat (fun (l : List Char) c => l ++ [c]) [] fmt args).sink

/-! ## Part III: the caller-buffer sinks, `sprintf` and `snprintf` -/

/-- Modelled from the spec: the memory the caller buffer `str` points into, by
index from `str`; the absent bodies of `sprintf` and `snprintf` write it. -/
abbrev Mem := Nat → Char

/-- Modelled from the spec: one byte store into the caller buffer by the
absent sinks. -/
def Mem.store (m : Mem) (i : Nat) (c : Char) : Mem := fun j => if j = i then c else m j

/-- Modelled from the spec: the terminating byte of a C string, written by the
absent sinks. -/
def NUL : Char := Char.ofNat 0

/-- Modelled from the spec: the state of a caller-buffer sink of the absent
engine: the memory and the number of bytes offered to it so far. -/
structure BufSink where
  mem : Mem
  pos : Nat

/-- Modelled from the spec: the absent sink of `snprintf` "writes up to
`size-1` bytes" (section 4.3): a byte is stored only while one more byte
still fits before the last one; every byte is counted. -/
def putBounded (size : Nat) (b : BufSink) (c : Char) : BufSink :=
  if b.pos + 1 < size then ⟨b.mem.store b.pos c, b.pos + 1⟩ else ⟨b.mem, b.pos + 1⟩

/-- Modelled from the spec: the absent sink of `sprintf` "writes
unconditionally into the caller buffer (no bound)" (section 4.3). -/
def putUnbounded (b : BufSink) (c : Char) : BufSink := ⟨b.mem.store b.pos c, b.pos + 1⟩

/-- Modelled from the spec: the absent `snprintf` "always null-terminates if
`size>0`" (section 4.3): the terminator goes behind the stored bytes, at index
`size - 1` at the latest. -/
def terminate (size : Nat) (b : BufSink) : Mem :=
  if size = 0 then b.mem else b.mem.store (min b.pos (size - 1)) NUL

/-- Modelled from the spec: what a formatting call of the absent library
leaves: the returned value, the caller buffer, and the counts stored by
`%n`. -/
structure FmtResult where
  ret : Int
  mem : Mem
  stores : List (Nat × Nat)

/-- Modelled from the spec: the body of `vsnprintf` (header line 23) is
absent; section 4.3: the engine over the bounded sink, the terminator, and
"the *total* length that would have been written had truncation not occurred"
as the return value. -/
def vsnprintf (str : Mem) (size : Nat) (format : List Char) (ap : List Arg) : FmtResult :=
  let e := vformat (putBounded size) ⟨str, 0⟩ format ap
  ⟨(e.count : Int), terminate size e.sink, e.stores⟩

/-- Modelled from the spec: the body of `snprintf` (header line 22) is absent;
it is `vsnprintf` on its variadic arguments as a list (section 9). -/
def snprintf (str : Mem) (size : Nat) (format : List Char) (args : List Arg) : FmtResult :=
  vsnprintf str size format args

/-- Modelled from the spec: the body of `sprintf` (header line 19) is absent;
section 4.3: the engine over the unbounded sink, then the terminator. -/
def sprintf (str : Mem) (format : List Char) (args : List Arg) : FmtResult :=
  let e := vformat putUnbounded ⟨str, 0⟩ format args
  ⟨(e.count : Int), e.sink.mem.store e.sink.pos NUL, e.stores⟩

/-- Modelled from the spec: the C string a buffer holds, read up to the
first terminator, as the absent `sscanf` reads its `str`; the first argument
bounds the number of bytes looked at. -/
def cstring (m : Mem) : Nat → Nat → List Char
  | 0, _ => []
  | k + 1, i => if m i = NUL then [] else m i :: cstring m k (i + 1)

/-- The engine over a sink `put` started at `s0` and the engine over the list
sink run in lock step: same count, arguments and stored counts, and the sink
of the first is the output of the second pushed through `put`. -/
def Sim {σ : Type} (put : σ → Char → σ) (s0 : σ) (e : Engine σ) (k : Engine (List Char)) : Prop :=
  e.count = k.count ∧ e.args = k.args ∧ e.stores = k.stores ∧
    e.sink = k.sink.foldl put s0 ∧ k.count = k.sink.length

/-! ## Part IV: the scan engine and `sscanf` -/

/-- Modelled from the spec: a whitespace character, as the absent scan engine
tests it (space, tab, newline, vertical tab, form feed, carriage return). -/
def isSpace (c : Char) : Bool := c == ' ' || (decide (9 ≤ c.toNat) && decide (c.toNat ≤ 13))

/-- Modelled from the spec: the absent scan engine passes over "zero or more
whitespace characters in the input" (section 4.4). -/
def skipSpace : List Char → List Char
  | [] => []
  | c :: cs => if isSpace c then skipSpace cs else c :: cs

/-- Modelled from the spec: the value of a digit character in the absent scan
engine, `0`-`9`, `a`-`f` or `A`-`F`. -/
def digitVal (c : Char) : Option Nat :=
  if 48 ≤ c.toNat ∧ c.toNat ≤ 57 then some (c.toNat - 48)
  else if 97 ≤ c.toNat ∧ c.toNat ≤ 102 then some (c.toNat - 87)
  else if 65 ≤ c.toNat ∧ c.toNat ≤ 70 then some (c.toNat - 55)
  else none

/-- Modelled from the spec: the maximal run of digits of a base at the head of
the input of the absent scan engine: accumulated value, number of digits
taken, and the rest. -/
def scanNum (base : Nat) : Nat → Nat → List Char → Nat × Nat × List Char
  | acc, k, [] => (acc, k, [])
  | acc, k, c :: cs =>
    match digitVal c with
    | some d => if d < base then scanNum base (acc * base + d) (k + 1) cs else (acc, k, c :: cs)
    | none => (acc, k, c :: cs)

/-- Modelled from the spec: the "optional sign" of a numeric token in the
absent scan engine (section 4.4): whether it is `-`, the number of characters
taken, and the rest. -/
def scanSign : List Char → Bool × Nat × List Char
  | [] => (false, 0, [])
  | c :: cs =>
    if c = '-' then (true, 1, cs) else if c = '+' then (false, 1, cs) else (false, 0, c :: cs)

/-- Modelled from the spec: whether the input of the absent scan engine starts
with the base mark `0x` or `0X` and a hexadecimal digit behind it. -/
def hexMarked : List Char → Bool
  | c0 :: c1 :: c2 :: _ =>
    c0 == '0' && (c1 == 'x' || c1 == 'X') &&
      (match digitVal c2 with
       | some _ => true
       | none => false)
  | _ => false

/-- Modelled from the spec: the base of an integer token in the absent scan
engine: 16 for `x` and `X`, 8 for `o`, for `i` 8 behind a leading `0` and 10
otherwise, and 10 for `d` and `u`. -/
def scanBase (c : Char) (cs : List Char) : Nat :=
  if c = 'x' ∨ c = 'X' then 16
  else if c = 'o' then 8
  else if c = 'i' ∧ cs.head? = some '0' then 8
  else 10

/-- Modelled from the spec: the unsigned part of an integer token in the
absent scan engine, "digits with optional ... base prefix" (section 4.4): the
magnitude and the number of characters taken, `none` without a digit. -/
def scanMagnitude (c : Char) (cs : List Char) : Option (Nat × Nat) :=
  if (c = 'x' ∨ c = 'X' ∨ c = 'i') ∧ hexMarked cs = true then
    some ((scanNum 16 0 0 (cs.drop 2)).1, (scanNum 16 0 0 (cs.drop 2)).2.1 + 2)
  else if (scanNum (scanBase c cs) 0 0 cs).2.1 = 0 then none
  else some ((scanNum (scanBase c cs) 0 0 cs).1, (scanNum (scanBase c cs) 0 0 cs).2.1)

/-- Modelled from the spec: "the maximal valid token" of an integer conversion
in the absent scan engine (section 4.4): the value and the number of
characters taken. -/
def scanInt (c : Char) (cs : List Char) : Option (Int × Nat) :=
  match scanMagnitude c (scanSign cs).2.2 with
  | some (m, k) => some (if (scanSign cs).1 then -(m : Int) else (m : Int), (scanSign cs).2.1 + k)
  | none => none

/-- Modelled from the spec: the canonical mantissa and scale of a decimal
value: trailing zeros of the fraction are dropped, so that equal values of the
absent scan engine are equal as data. -/
def normalize : Nat → Nat → Nat × Nat
  | m, 0 => (m, 0)
  | m, s + 1 => if m % 10 = 0 then normalize (m / 10) s else (m, s + 1)

/-- Modelled from the spec: the fraction of a float token in the absent scan
engine: behind a `.`, the value of the fraction digits, their number, and the
number of characters taken (0 without a `.`). -/
def scanFraction : List Char → Nat × Nat × Nat
  | [] => (0, 0, 0)
  | c :: cs =>
    if c = '.' then ((scanNum 10 0 0 cs).1, (scanNum 10 0 0 cs).2.1, (scanNum 10 0 0 cs).2.1 + 1)
    else (0, 0, 0)

/-- Modelled from the spec: the exponent of a float token in the absent scan
engine: `e` or `E`, an optional sign and at least one digit; the exponent and
the number of characters taken (0 without a valid exponent). -/
def scanExponent : List Char → Int × Nat
  | [] => (0, 0)
  | c :: cs =>
    if (c = 'e' ∨ c = 'E') ∧ (scanNum 10 0 0 (scanSign cs).2.2).2.1 ≠ 0 then
      (if (scanSign cs).1 then -((scanNum 10 0 0 (scanSign cs).2.2).1 : Int)
        else ((scanNum 10 0 0 (scanSign cs).2.2).1 : Int),
       1 + (scanSign cs).2.1 + (scanNum 10 0 0 (scanSign cs).2.2).2.1)
    else (0, 0)

/-- Modelled from the spec: the decimal value `mant * 10^e / 10^scale` of the
absent scan engine, in canonical form. -/
def decOf (neg : Bool) (mant scale : Nat) (e : Int) : Dec :=
  if 0 ≤ e then
    ⟨neg, (normalize (mant * 10 ^ (e.toNat - scale)) (scale - e.toNat)).1,
      (normalize (mant * 10 ^ (e.toNat - scale)) (scale - e.toNat)).2⟩
  else ⟨neg, (normalize mant (scale + e.natAbs)).1, (normalize mant (scale + e.natAbs)).2⟩

/-- Modelled from the spec: "the maximal valid token" of a float conversion in
the absent scan engine, "digits/`.`/exponent for floats" (section 4.4), with
an optional sign and at least one digit in the mantissa: the value and the
number of characters taken. -/
def scanFloat (cs : List Char) : Option (Dec × Nat) :=
  let s := scanSign cs
  let ip := scanNum 10 0 0 s.2.2
  let fr := scanFraction ip.2.2
  let ex := scanExponent (ip.2.2.drop fr.2.2)
  if ip.2.1 + fr.2.1 = 0 then none
  else some (decOf s.1 (ip.1 * 10 ^ fr.2.1 + fr.1) fr.2.1 ex.1, s.2.1 + ip.2.1 + fr.2.2 + ex.2)

/-- Modelled from the spec: the token of a string conversion in the absent
scan engine, characters "until whitespace" (section 4.4). -/
def scanWord : List Char → List Char
  | [] => []
  | c :: cs => if isSpace c then [] else c :: scanWord cs

/-- Modelled from the spec: the state of the absent scan engine: the input not
yet consumed, the values written into the argument slots so far, in order,
the count of assigned conversions, and whether a failure stopped the scan. -/
structure Scan where
  input : List Char
  assigned : List Arg
  count : Nat
  failed : Bool
  deriving DecidableEq

/-- Modelled from the spec: an input or matching failure of the absent scan
engine: the scan stops, what was assigned stays. -/
def Scan.fail (st : Scan) : Scan := { st with failed := true }

/-- Modelled from the spec: the absent scan engine writes "the parsed value
into the corresponding argument slot" (section 4.4), counts the conversion,
and goes on behind the token. -/
def Scan.assign (st : Scan) (v : Arg) (rest : List Char) : Scan :=
  { st with input := rest, assigned := st.assigned ++ [v], count := st.count + 1 }

/-- Modelled from the spec: a literal width bounds the characters a token of
the absent scan engine may take ("up to width", section 4.4). -/
def window (w : Count) (cs : List Char) : List Char :=
  match w with
  | .lit n => cs.take n
  | _ => cs

/-- Modelled from the spec: the number of characters a `%c` of the absent scan
engine takes: its literal width, 1 without one. -/
def charCount (w : Count) : Nat :=
  match w with
  | .lit n => n
  | _ => 1

/-- Modelled from the spec: the integer conversions of the absent scan
engine. -/
def isIntConv (c : Char) : Bool := c ∈ ['d', 'i', 'u', 'o', 'x', 'X']

/-- Modelled from the spec: the float conversions of the absent scan
engine. -/
def isFloatConv (c : Char) : Bool := c ∈ ['f', 'F', 'e', 'E', 'g', 'G']

/-- Modelled from the spec: the value an integer conversion of the absent scan
engine stores: the token at the width of the length modifier, signed for `d`
and `i`, unsigned for `u`, `o`, `x`, `X`. -/
def storeInt (c : Char) (len : LenMod) (v : Int) : Int :=
  if c = 'd' ∨ c = 'i' then wrapSigned len.bits v else (wrapUnsigned len.bits v : Int)

/-- Modelled from the spec: one conversion of the absent scan engine (section
4.4): "each conversion skips leading whitespace (except `%c`), then consumes
the maximal valid token for its type".  `%%` matches a percent sign; `%c`
takes the width (1 by default) in characters.  The spec gives no meaning to a
width `*` or to other conversion characters on the input side: the model
halts on them, as on a failed match. -/
def scanConv (st : Scan) (s : Spec) : Scan :=
  if s.width = .star then st.fail
  else if s.conv = '%' then
    match skipSpace st.input with
    | [] => st.fail
    | c :: cs => if c = '%' then { st with input := cs } else st.fail
  else if isIntConv s.conv then
    match scanInt s.conv (window s.width (skipSpace st.input)) with
    | some (v, k) => st.assign (.int (storeInt s.conv s.len v)) ((skipSpace st.input).drop k)
    | none => st.fail
  else if isFloatConv s.conv then
    match scanFloat (window s.width (skipSpace st.input)) with
    | some (v, k) => st.assign (.flt v) ((skipSpace st.input).drop k)
    | none => st.fail
  else if s.conv = 's' then
    if scanWord (window s.width (skipSpace st.input)) = [] then st.fail
    else st.assign (.str (scanWord (window s.width (skipSpace st.input))))
      ((skipSpace st.input).drop (scanWord (window s.width (skipSpace st.input))).length)
  else if s.conv = 'c' then
    if st.input.length < charCount s.width ∨ charCount s.width = 0 then st.fail
    else st.assign (.str (st.input.take (charCount s.width)))
      (st.input.drop (charCount s.width))
  else st.fail

/-- Modelled from the spec: one directive of the absent scan engine (section
4.4): "whitespace in the format ... matches zero or more whitespace characters
in the input; literal non-whitespace format characters must match input
exactly or the scan halts". -/
def scanStep (st : Scan) : Directive → Scan
  | .lit c =>
    if isSpace c then { st with input := skipSpace st.input }
    else
      match st.input with
      | [] => st.fail
      | x :: xs => if x = c then { st with input := xs } else st.fail
  | .conv s => scanConv st s
  | .bad => st.fail

/-- Modelled from the spec: the absent scan engine runs the directives in
order and stops at the first failure (section 4.4). -/
def scanRun : List Directive → Scan → Scan
  | [], st => st
  | d :: ds, st => if (scanStep st d).failed then scanStep st d else scanRun ds (scanStep st d)

/-- Modelled from the spec: what a call of the absent `sscanf` leaves: the
returned value and the values written into the argument slots, in order. -/
structure ScanResult where
  ret : Int
  assigned : List Arg
  deriving DecidableEq

/-- Modelled from the spec: the return value of the absent scan engine:
"the count of successfully assigned conversions; ... a negative sentinel if an
input or matching failure occurs before any conversion is assigned" (section
4.4). -/
def Scan.result (st : Scan) : ScanResult :=
  ⟨if st.failed ∧ st.count = 0 then EOF else (st.count : Int), st.assigned⟩

/-- Modelled from the spec: the body of `sscanf` (header line 24) is absent;
section 4.4: the scan engine over the directives of the format, on the
string `str`. -/
def sscanf (str : List Char) (format : List Char) : ScanResult :=
  (scanRun (directives format) ⟨str, [], 0, false⟩).result

/-! ## Part V: the round trip of formatting and scanning -/

/-- The characters of a length modifier in a format string. -/
def LenMod.chars : LenMod → List Char
  | .dflt => []
  | .h => ['h']
  | .l => ['l']
  | .ll => ['l', 'l']
  | .z => ['z']
  | .t => ['t']

/-- The plain format of one conversion: `%`, the length modifier, the
conversion character; `plainFormat .dflt 'd'` is `%d`. -/
def plainFormat (len : LenMod) (c : Char) : List Char := '%' :: (len.chars ++ [c])

/-- The "supported integer values" of a conversion: those the integer type of
the conversion represents, signed for `d` and `i`, unsigned for the others. -/
def supported (c : Char) (len : LenMod) (v : Int) : Prop :=
  if c = 'd' ∨ c = 'i' then -(2 ^ (len.bits - 1) : Int) ≤ v ∧ v < 2 ^ (len.bits - 1)
  else 0 ≤ v ∧ v < 2 ^ len.bits

instance (c : Char) (len : LenMod) (v : Int) : Decidable (supported c len v) := by
  unfold supported
  infer_instance

/-- A float "representable without loss at precision `p`": in canonical form,
with at most `p` fraction digits. -/
def Dec.exactAt (v : Dec) (p : Nat) : Prop :=
  v.scale ≤ p ∧ (v.scale = 0 ∨ v.mant % 10 ≠ 0)

instance (v : Dec) (p : Nat) : Decidable (v.exactAt p) := by
  unfold Dec.exactAt
  infer_instance

/-! ## Part VI: the descriptor, the buffered stream, `fwrite`, `fread`, `fseek`, `ftell` -/

/-- Modelled from the spec: the underlying descriptor, an external
collaborator of the library (section 1) of which the header shows nothing: a
byte file with an offset.  `script` fixes what the coming read and write
calls report: `none` is a hard error, `some k` a transfer of at most `k + 1`
bytes (a short read or write), and calls beyond the script transfer all they
can. -/
structure Desc where
  data : List Char
  off : Nat
  seekable : Bool
  script : List (Option Nat)
  deriving DecidableEq

/-- Modelled from the spec: the first `off` bytes of a file, zero-filled when
the file is shorter (a write behind the end leaves a gap of zero bytes). -/
def front (data : List Char) (off : Nat) : List Char :=
  (data ++ List.replicate (off - data.length) NUL).take off

/-- Modelled from the spec: the file after a descriptor write of `bs` at
offset `off`; a write of no byte changes nothing. -/
def overwrite (data : List Char) (off : Nat) (bs : List Char) : List Char :=
  if bs = [] then data else front data off ++ bs ++ data.drop (off + bs.length)

/-- Modelled from the spec: the number of bytes one descriptor call
transfers out of `n` requested, under the script entry of the call. -/
def granted (o : Option Nat) (n : Nat) : Nat :=
  match o with
  | some k => min n (k + 1)
  | none => 0

/-- Modelled from the spec: one descriptor write (an external collaborator):
a hard error, or the number of bytes accepted, possibly short, at least one
for a non-empty request. -/
def Desc.write (d : Desc) (bs : List Char) : Option Nat × Desc :=
  match d.script with
  | [] => (some bs.length,
      { d with data := overwrite d.data d.off bs, off := d.off + bs.length })
  | none :: rest => (none, { d with script := rest })
  | some k :: rest => (some (granted (some k) bs.length),
      { d with data := overwrite d.data d.off (bs.take (granted (some k) bs.length)),
               off := d.off + granted (some k) bs.length, script := rest })

/-- Modelled from the spec: one descriptor read of at most `n` bytes (an
external collaborator): a hard error, or the bytes at the offset, possibly
fewer than asked, none at the end of the file. -/
def Desc.read (d : Desc) (n : Nat) : Option (List Char) × Desc :=
  match d.script with
  | [] => (some ((d.data.drop d.off).take n),
      { d with off := d.off + ((d.data.drop d.off).take n).length })
  | none :: rest => (none, { d with script := rest })
  | some k :: rest => (some ((d.data.drop d.off).take (granted (some k) n)),
      { d with off := d.off + ((d.data.drop d.off).take (granted (some k) n)).length,
               script := rest })

/-- Modelled from the spec: one descriptor seek (an external collaborator): it
fails on an unseekable descriptor, on an unknown `whence` and on a negative
target. -/
def Desc.seek (d : Desc) (offset whence : Int) : Option Desc :=
  if d.seekable = false then none
  else if whence = SEEK_SET then
    (if offset < 0 then none else some { d with off := offset.toNat })
  else if whence = SEEK_CUR then
    (if (d.off : Int) + offset < 0 then none
     else some { d with off := ((d.off : Int) + offset).toNat })
  else if whence = SEEK_END then
    (if (d.data.length : Int) + offset < 0 then none
     else some { d with off := ((d.data.length : Int) + offset).toNat })
  else none

/-- Modelled from the spec: the buffering mode of a stream of the absent
library, "unbuffered, line-buffered, fully-buffered" (section 3). -/
inductive BufMode where
  | unbuffered
  | line
  | full
  deriving DecidableEq

/-- Modelled from the spec: the stream handle of section 3, which the header
hides behind `typedef void FILE`: the descriptor it owns, the open-mode
flags, the buffering mode, the buffer (capacity `cap`, valid bytes `buf`,
cursor `cur`), the sub-state (`writing` for "write-pending", otherwise
"read-filled"), the error flag and the end-of-input flag.  The logical
position is not kept apart: it is "reconciled with descriptor offset minus
unflushed bytes" by `ftell`. -/
structure Stream where
  fd : Desc
  canRead : Bool
  canWrite : Bool
  mode : BufMode
  cap : Nat
  buf : List Char
  cur : Nat
  writing : Bool
  err : Bool
  eof : Bool
  deriving DecidableEq

/-- Modelled from the spec: the "flush loop that issues descriptor writes
until all buffered bytes are accepted, retrying on short writes and failing
... only when the descriptor reports a hard error" (section 4.2).  It
returns whether it succeeded, the descriptor, and the bytes not accepted; the
first argument bounds the number of descriptor writes. -/
def flushLoop : Nat → Desc → List Char → Bool × Desc × List Char
  | 0, d, bs => (bs.isEmpty, d, bs)
  | fuel + 1, d, bs =>
    if bs = [] then (true, d, [])
    else
      match d.write bs with
      | (none, d') => (false, d', bs)
      | (some n, d') => flushLoop fuel d' (bs.drop n)

/-- Modelled from the spec: the body of `fflush` (header line 29) is absent;
section 4.2: it "forces the write loop ...; is a no-op if nothing is
pending"; a hard error sets the error flag and returns `EOF` (section 7).
Each descriptor write of the loop takes at least one byte, so one write per
pending byte is enough. -/
def fflush (s : Stream) : Int × Stream :=
  if s.writing = true ∧ s.buf ≠ [] then
    match flushLoop s.buf.length s.fd s.buf with
    | (true, d, _) => (0, { s with fd := d, buf := [], cur := 0 })
    | (false, d, rest) => (EOF, { s with fd := d, buf := rest, cur := rest.length, err := true })
  else (0, s)

/-- Modelled from the spec: the body of `ftell` (header line 39) is absent;
section 4.1: "current logical position accounting for buffered-but-unflushed
bytes": the descriptor offset plus the pending bytes, or minus the bytes read
ahead. -/
def ftell (s : Stream) : Int :=
  if s.writing = true then (s.fd.off : Int) + (s.buf.length : Int)
  else (s.fd.off : Int) - ((s.buf.length - s.cur : Nat) : Int)

/-- Modelled from the spec: the size of the file as the stream sees it,
pending writes included; `SEEK_END` counts from it. -/
def logicalSize (s : Stream) : Nat :=
  if s.writing = true ∧ s.buf ≠ [] then max s.fd.data.length (s.fd.off + s.buf.length)
  else s.fd.data.length

/-- Modelled from the spec: the absolute target of a seek of the absent
library, from `offset` and `whence` (header lines 43 to 45); `none` for an
unknown `whence`. -/
def seekTarget (s : Stream) (offset whence : Int) : Option Int :=
  if whence = SEEK_SET then some offset
  else if whence = SEEK_CUR then some (ftell s + offset)
  else if whence = SEEK_END then some ((logicalSize s : Int) + offset)
  else none

/-- Modelled from the spec: the body of `fseek` (header line 38) is absent;
section 4.1: "flush if write-pending, discard read buffer, reposition, fails
with SeekError on an unseekable or invalid-offset target", and section 7: a
SeekError "returns failure code, stream state unchanged", so the target is
checked before anything is touched.  A hard error of the flush is an IOError
(section 7): the error flag is set and the call returns `EOF`. -/
def fseek (s : Stream) (offset whence : Int) : Int × Stream :=
  if s.fd.seekable = false then (EOF, s)
  else
    match seekTarget s offset whence with
    | none => (EOF, s)
    | some t =>
      if t < 0 then (EOF, s)
      else if (fflush s).1 ≠ 0 then (EOF, (fflush s).2)
      else
        match (fflush s).2.fd.seek t SEEK_SET with
        | none => (EOF, (fflush s).2)
        | some d =>
          (0, { (fflush s).2 with fd := d, buf := [], cur := 0, writing := false, eof := false })

/-- Modelled from the spec: a stream in the "read-filled" sub-state turns to
writing (section 3: never both sub-states at once): the bytes read ahead are
discarded and the descriptor is put back at the logical position; `none` when
the descriptor cannot be put back. -/
def beginWrite (s : Stream) : Option Stream :=
  if s.writing = true then some s
  else if s.buf.length - s.cur = 0 then some { s with buf := [], cur := 0, writing := true }
  else
    match s.fd.seek (-((s.buf.length - s.cur : Nat) : Int)) SEEK_CUR with
    | some d => some { s with fd := d, buf := [], cur := 0, writing := true }
    | none => none

/-- Modelled from the spec: one byte of a buffered write (section 4.2): it is
appended "into the write buffer; when buffering mode is unbuffered, or the
buffer is full, or (line-buffered) a newline is appended", the flush loop
runs.  It returns whether the byte was accepted without a hard error. -/
def putByte (s : Stream) (c : Char) : Bool × Stream :=
  if s.mode = .unbuffered ∨ s.cap ≤ s.buf.length + 1 ∨ (s.mode = .line ∧ c = '\n') then
    (decide ((fflush { s with buf := s.buf ++ [c], cur := s.buf.length + 1 }).1 = 0),
      (fflush { s with buf := s.buf ++ [c], cur := s.buf.length + 1 }).2)
  else (true, { s with buf := s.buf ++ [c], cur := s.buf.length + 1 })

/-- Modelled from the spec: the write of the Buffer Manager (section 4.2) over
a run of bytes; it "returns count of bytes logically accepted" and stops at a
hard error. -/
def writeBytes : List Char → Stream → Nat × Stream
  | [], s => (0, s)
  | c :: cs, s =>
    if (putByte s c).1 = true then ((writeBytes cs (putByte s c).2).1 + 1, (writeBytes cs (putByte s c).2).2)
    else (0, (putByte s c).2)

/-- Modelled from the spec: the body of `fwrite` (header line 37) is absent;
section 4.2: the `size * nmemb` bytes at `ptr` (here `data`) go through the
buffered write, and the call returns the "elements written".  A stream not
open for writing, or one that cannot turn to writing, sets the error flag and
writes nothing. -/
def fwrite (data : List Char) (size nmemb : Nat) (s : Stream) : Nat × Stream :=
  if s.canWrite = false then (0, { s with err := true })
  else
    match beginWrite s with
    | none => (0, { s with err := true })
    | some s1 =>
      ((writeBytes (data.take (size * nmemb)) s1).1 / size,
        (writeBytes (data.take (size * nmemb)) s1).2)

/-- Modelled from the spec: the refill of the read buffer (section 4.2): "one
descriptor read to refill up to buffer capacity"; "a zero-byte result sets
EOF", a hard error sets the error flag. -/
def refill (s : Stream) : Stream :=
  match s.fd.read s.cap with
  | (none, d) => { s with fd := d, buf := [], cur := 0, err := true }
  | (some bs, d) => { s with fd := d, buf := bs, cur := 0, eof := s.eof || bs.isEmpty }

/-- Modelled from the spec: one byte of a buffered read (section 4.2): it
"serves from the read buffer first; on exhaustion" the buffer is refilled;
`none` at the end of the input or on a hard error. -/
def getByte (s : Stream) : Option Char × Stream :=
  match s.buf.drop s.cur with
  | c :: _ => (some c, { s with cur := s.cur + 1 })
  | [] =>
    match (refill s).buf with
    | c :: _ => (some c, { refill s with cur := 1 })
    | [] => (none, refill s)

/-- Modelled from the spec: the read of the Buffer Manager (section 4.2) for
`n` bytes: it goes on refilling while the caller asked for more than the
buffer holds, and stops short at the end of the input or on a hard error. -/
def readBytes : Nat → Stream → List Char × Stream
  | 0, s => ([], s)
  | n + 1, s =>
    match (getByte s).1 with
    | some c => (c :: (readBytes n (getByte s).2).1, (readBytes n (getByte s).2).2)
    | none => ([], (getByte s).2)

/-- Modelled from the spec: a stream in the "write-pending" sub-state turns to
reading once its pending bytes are flushed (section 3: never both sub-states
at once); a stream that is reading stays as it is. -/
def beginRead (s : Stream) : Stream :=
  if s.writing = true then { (fflush s).2 with writing := false } else s

/-- Modelled from the spec: the body of `fread` (header line 36) is absent;
section 4.2: `size * nmemb` bytes are asked from the buffered read; the call
returns the bytes stored at `ptr` and the number of whole elements read.  A
stream not open for reading sets the error flag and reads nothing, and so
does one whose pending writes cannot be flushed (IOError, section 7). -/
def fread (size nmemb : Nat) (s : Stream) : List Char × Nat × Stream :=
  if s.canRead = false then ([], 0, { s with err := true })
  else if s.writing = true ∧ (fflush s).1 ≠ 0 then ([], 0, (fflush s).2)
  else
    ((readBytes (size * nmemb) (beginRead s)).1,
      (readBytes (size * nmemb) (beginRead s)).1.length / size,
      (readBytes (size * nmemb) (beginRead s)).2)

/-- Modelled from the spec: the body of `ferror` (header line 40) is absent;
section 7: the error flag of the stream is "surfaced via `ferror`". -/
def ferror (s : Stream) : Int := if s.err = true then 1 else 0

/-- The invariant of the stream handle (section 3): "buffer cursor ≤ valid
length ≤ capacity", a capacity of at least one byte, the cursor at the end of
the pending bytes while writing, and no more bytes read ahead than the
descriptor has passed. -/
def Stream.wf (s : Stream) : Prop :=
  s.cur ≤ s.buf.length ∧ s.buf.length ≤ s.cap ∧ 0 < s.cap ∧
    (s.writing = true → s.cur = s.buf.length) ∧
    (s.writing = false → s.buf.length - s.cur ≤ s.fd.off)

instance (s : Stream) : Decidable s.wf := by
  unfold Stream.wf
  infer_instance

/-- A descriptor that reports no hard error in the calls to come. -/
def Desc.clean (d : Desc) : Prop := ∀ o ∈ d.script, o ≠ none

instance (d : Desc) : Decidable d.clean := by
  unfold Desc.clean
  infer_instance

/-- The file as the stream sees it: the file of the descriptor with the
pending bytes laid over it at the descriptor offset. -/
def Stream.image (s : Stream) : List Char :=
  if s.writing = true then overwrite s.fd.data s.fd.off s.buf else s.fd.data

/-- Two states of one stream with the same open mode, buffering mode,
capacity and kind of descriptor, the second with a descriptor that reports no
hard error if the first has one. -/
def Stream.sameSetup (s t : Stream) : Prop :=
  t.canRead = s.canRead ∧ t.canWrite = s.canWrite ∧ t.mode = s.mode ∧ t.cap = s.cap ∧
    t.fd.seekable = s.fd.seekable ∧ (s.fd.clean → t.fd.clean)

/-- The bytes in front of a reading stream: the bytes of the buffer not yet
served, then the bytes of the file from the descriptor offset on. -/
def Stream.ahead (s : Stream) : List Char := s.buf.drop s.cur ++ s.fd.data.drop s.fd.off

/-- A read-write stream for the concrete cases: a seekable file of 11 bytes
with the descriptor at offset 3, a buffer of 4 bytes, nothing buffered, and a
descriptor whose next two calls transfer at most 1 and 2 bytes. -/
def demoStream : Stream :=
  ⟨⟨"hello world".toList, 3, true, [some 0, some 1]⟩, true, true, .full, 4, [], 0, false,
    false, false⟩

/-- A read-write stream for the concrete cases as `fopen` would leave it: an
empty seekable file, a buffer of `BUFSIZ` bytes, nothing buffered. -/
def freshStream : Stream :=
  ⟨⟨[], 0, true, []⟩, true, true, .full, BUFSIZ, [], 0, false, false, false⟩

/-- A stream for the concrete cases with two bytes written and not yet
flushed, over a descriptor that takes them. -/
def pendingStream : Stream :=
  ⟨⟨"hello".toList, 0, true, []⟩, true, true, .full, 4, "ab".toList, 2, true, false, false⟩

/-- A stream for the concrete cases with two bytes written and not yet
flushed, over a seekable descriptor whose next call reports a hard error. -/
def brokenStream : Stream :=
  ⟨⟨"hello".toList, 0, true, [none]⟩, true, true, .full, 4, "ab".toList, 2, true, false, false⟩

/-! ## Theorems -/

/-- C6: the constants of the header have the values the spec gives them:
`EOF` is -1 (negative), `SEEK_SET`, `SEEK_CUR`, `SEEK_END` are 0, 1, 2,
`BUFSIZ` is 8192 and `P_tmpdir` is the string "/tmp". -/
theorem constants_values :
    EOF = -1 ∧ EOF < 0 ∧ SEEK_SET = 0 ∧ SEEK_CUR = 1 ∧ SEEK_END = 2 ∧
      BUFSIZ = 8192 ∧ P_tmpdir = "/tmp" := by
  decide

/-- C7: the predefined streams are the numeric values 0, 1 and 2 seen as
`FILE *`: `stdin` is 0, `stdout` is 1, `stderr` is 2, and no two coincide. -/
theorem predefined_streams_fixed :
    stdin = FilePtr.mk 0 ∧ stdout = FilePtr.mk 1 ∧ stderr = FilePtr.mk 2 ∧
      stdin.addr = 0 ∧ stdout.addr = 1 ∧ stderr.addr = 2 ∧
      stdin ≠ stdout ∧ stdin ≠ stderr ∧ stdout ≠ stderr := by
  decide

/-- C8: the header declares exactly the 24 names of the spec: a name is
declared if and only if it is on the spec's list, there are 24 declarations,
and no name is declared twice. -/
theorem declared_set_exact :
    (∀ n : String, n ∈ declaredNames ↔ n ∈ specNames) ∧
      declarations.length = 24 ∧ specNames.length = 24 ∧
      declaredNames.Nodup ∧ declaredNames.Perm specNames := by
  refine ⟨?_, by decide, by decide, by decide, by decide⟩
  have hp : declaredNames.Perm specNames := by decide
  intro n
  exact hp.mem_iff

/-- C9: `krake_debug_printf` and `printf` are both declared, with the same
signature: return type `int`, the single named parameter `const char *format`,
and a variadic tail. -/
theorem krake_debug_printf_signature :
    findDecl "printf" = some ⟨.int, "printf", [⟨constCharPtr, "format"⟩], true⟩ ∧
      findDecl "krake_debug_printf" =
        some ⟨.int, "krake_debug_printf", [⟨constCharPtr, "format"⟩], true⟩ ∧
      (findDecl "printf").map Decl.signature =
        (findDecl "krake_debug_printf").map Decl.signature ∧
      (findDecl "printf").map Decl.params =
        (findDecl "krake_debug_printf").map Decl.params := by
  decide

/-- C10, as the claim states it, fails: the null handle is not different from
each of the three predefined handles, since `stdin` is `(FILE*)0` too. -/
theorem null_handle_is_stdin :
    ¬ (nullHandle ≠ stdin ∧ nullHandle ≠ stdout ∧ nullHandle ≠ stderr) := by
  decide

/-- C10, amended: the null handle differs from `stdout` and from `stderr`,
and it coincides with `stdin`, whose numeric value is 0 as well. -/
theorem null_handle_distinct_from_stdout_stderr :
    nullHandle ≠ stdout ∧ nullHandle ≠ stderr ∧ nullHandle = stdin ∧
      nullHandle.addr = 0 := by
  decide

/-! ### Format engine and sinks -/

theorem foldl_snoc (cs l0 : List Char) :
    cs.foldl (fun (l : List Char) c => l ++ [c]) l0 = l0 ++ cs := by
  induction cs generalizing l0 with
  | nil => simp
  | cons c cs ih => simp [ih]

theorem sim_emit {σ : Type} {put : σ → Char → σ} {s0 : σ} {e : Engine σ}
    {k : Engine (List Char)} (h : Sim put s0 e k) (cs : List Char) :
    Sim put s0 (e.emit put cs) (k.emit (fun (l : List Char) c => l ++ [c]) cs) := by
  obtain ⟨h1, h2, h3, h4, h5⟩ := h
  refine ⟨?_, h2, h3, ?_, ?_⟩
  · simp [Engine.emit, h1]
  · simp [Engine.emit, foldl_snoc, List.foldl_append, h4]
  · simp [Engine.emit, foldl_snoc, h5]

theorem sim_setArgs {σ : Type} {put : σ → Char → σ} {s0 : σ} {e : Engine σ}
    {k : Engine (List Char)} (h : Sim put s0 e k) (as : List Arg) :
    Sim put s0 { e with args := as } { k with args := as } := by
  obtain ⟨h1, h2, h3, h4, h5⟩ := h
  exact ⟨h1, rfl, h3, h4, h5⟩

theorem sim_stepConv {σ : Type} {put : σ → Char → σ} {s0 : σ} {e : Engine σ}
    {k : Engine (List Char)} (h : Sim put s0 e k) (s : Spec) :
    Sim put s0 (stepConv put e s) (stepConv (fun (l : List Char) c => l ++ [c]) k s) := by
  have ha : e.args = k.args := h.2.1
  have hc : e.count = k.count := h.1
  have hs : e.stores = k.stores := h.2.2.1
  unfold Stdio.stepConv
  simp only [ha]
  split_ifs
  · exact sim_emit (sim_setArgs h _) _
  · split
    · obtain ⟨h1, h2, h3, h4, h5⟩ := h
      exact ⟨h1, rfl, by simp [h3, h1], h4, h5⟩
    · exact sim_setArgs h _
  · split
    · exact sim_setArgs h _
    · split
      · exact sim_emit (sim_setArgs h _) _
      · exact sim_setArgs h _
  · exact sim_emit (sim_setArgs h _) _

theorem sim_step {σ : Type} {put : σ → Char → σ} {s0 : σ} {e : Engine σ}
    {k : Engine (List Char)} (h : Sim put s0 e k) (d : Directive) :
    Sim put s0 (step put e d) (step (fun (l : List Char) c => l ++ [c]) k d) := by
  cases d with
  | lit c => exact sim_emit h _
  | conv s => exact sim_stepConv h s
  | bad => exact h

theorem sim_run {σ : Type} {put : σ → Char → σ} {s0 : σ} (ds : List Directive) {e : Engine σ}
    {k : Engine (List Char)} (h : Sim put s0 e k) :
    Sim put s0 (ds.foldl (step put) e) (ds.foldl (step (fun (l : List Char) c => l ++ [c])) k) := by
  induction ds generalizing e k with
  | nil => exact h
  | cons d ds ih => exact ih (sim_step h d)

theorem vformat_sim {σ : Type} (put : σ → Char → σ) (s0 : σ) (fmt : List Char) (args : List Arg) :
    (vformat put s0 fmt args).sink = (render fmt args).foldl put s0 ∧
      (vformat put s0 fmt args).count = (render fmt args).length := by
  have h0 : Sim put s0 (⟨s0, 0, args, []⟩ : Engine σ) (⟨[], 0, args, []⟩ : Engine (List Char)) :=
    ⟨rfl, rfl, rfl, rfl, rfl⟩
  have h := sim_run (directives fmt) h0
  exact ⟨h.2.2.2.1, h.1.trans h.2.2.2.2⟩

theorem fold_putBounded_pos (size : Nat) (l : List Char) (b : BufSink) :
    (l.foldl (putBounded size) b).pos = b.pos + l.length := by
  induction l generalizing b with
  | nil => simp
  | cons c cs ih =>
    simp only [List.foldl_cons, ih, List.length_cons]
    unfold putBounded
    split_ifs <;> simp <;> omega

theorem fold_putBounded_mem (size : Nat) (l : List Char) (b : BufSink) (i : Nat) :
    (l.foldl (putBounded size) b).mem i =
      if b.pos ≤ i ∧ i + 1 < size then (l[i - b.pos]?).getD (b.mem i) else b.mem i := by
  induction l generalizing b with
  | nil => simp
  | cons c cs ih =>
    simp only [List.foldl_cons, ih]
    unfold putBounded
    by_cases h1 : b.pos + 1 < size
    · simp only [h1, if_true]
      by_cases h2 : b.pos = i
      · subst h2
        simp [Mem.store, h1]
      · by_cases h3 : b.pos + 1 ≤ i ∧ i + 1 < size
        · have h4 : b.pos ≤ i ∧ i + 1 < size := ⟨by omega, h3.2⟩
          have h5 : i - b.pos = (i - (b.pos + 1)) + 1 := by omega
          simp only [h3, h4, and_self, if_true, Mem.store, Ne.symm h2, if_false, h5,
            List.getElem?_cons_succ]
        · have h4 : ¬ (b.pos ≤ i ∧ i + 1 < size) := by
            intro h; apply h3; exact ⟨by omega, h.2⟩
          simp only [h3, h4, if_false, Mem.store, Ne.symm h2]
    · simp only [h1, if_false]
      have h3 : ¬ (b.pos + 1 ≤ i ∧ i + 1 < size) := by omega
      have h4 : ¬ (b.pos ≤ i ∧ i + 1 < size) := by omega
      simp only [h3, h4, if_false]

theorem fold_putUnbounded_pos (l : List Char) (b : BufSink) :
    (l.foldl putUnbounded b).pos = b.pos + l.length := by
  induction l generalizing b with
  | nil => simp
  | cons c cs ih =>
    simp only [List.foldl_cons, ih, List.length_cons]
    simp [putUnbounded]; omega

theorem fold_putUnbounded_mem (l : List Char) (b : BufSink) (i : Nat) :
    (l.foldl putUnbounded b).mem i =
      if b.pos ≤ i then (l[i - b.pos]?).getD (b.mem i) else b.mem i := by
  induction l generalizing b with
  | nil => simp
  | cons c cs ih =>
    simp only [List.foldl_cons, ih]
    unfold putUnbounded
    by_cases h2 : b.pos = i
    · subst h2
      simp [Mem.store]
    · by_cases h3 : b.pos + 1 ≤ i
      · have h4 : b.pos ≤ i := by omega
        have h5 : i - b.pos = (i - (b.pos + 1)) + 1 := by omega
        simp only [h3, h4, if_true, Mem.store, Ne.symm h2, if_false, h5,
          List.getElem?_cons_succ]
      · have h4 : ¬ (b.pos ≤ i) := by omega
        simp only [h3, h4, if_false, Mem.store, Ne.symm h2]

theorem vsnprintf_ret (buf : Mem) (n : Nat) (fmt : List Char) (args : List Arg) :
    (vsnprintf buf n fmt args).ret = ((render fmt args).length : Int) := by
  simp [vsnprintf, (vformat_sim (putBounded n) ⟨buf, 0⟩ fmt args).2]

theorem vsnprintf_mem (buf : Mem) (n : Nat) (fmt : List Char) (args : List Arg) :
    (vsnprintf buf n fmt args).mem =
      terminate n ((render fmt args).foldl (putBounded n) ⟨buf, 0⟩) := by
  simp [vsnprintf, (vformat_sim (putBounded n) ⟨buf, 0⟩ fmt args).1]

theorem sprintf_ret (buf : Mem) (fmt : List Char) (args : List Arg) :
    (sprintf buf fmt args).ret = ((render fmt args).length : Int) := by
  simp [sprintf, (vformat_sim putUnbounded ⟨buf, 0⟩ fmt args).2]

/-- C1: for every buffer, size `n`, format and argument list, `snprintf` (and
`vsnprintf`) leaves every byte at index `n` or more as it was, stores the
terminator behind the output it kept, within the first `n` bytes, when
`n > 0`, keeps the first bytes of the formatted output in front of it, and
returns the length of the whole formatted output, which is what the unbounded
`sprintf` returns; `snprintf(buf, 4, "%d", 123456)` returns 6 and leaves
`123` and the terminator. -/
theorem snprintf_contract (buf : Mem) (n : Nat) (fmt : List Char) (args : List Arg) :
    (∀ i, n ≤ i → (snprintf buf n fmt args).mem i = buf i) ∧
    (0 < n → min (render fmt args).length (n - 1) < n ∧
      (snprintf buf n fmt args).mem (min (render fmt args).length (n - 1)) = NUL) ∧
    (∀ i, i < min (render fmt args).length (n - 1) →
      (render fmt args)[i]? = some ((snprintf buf n fmt args).mem i)) ∧
    (snprintf buf n fmt args).ret = ((render fmt args).length : Int) ∧
    (snprintf buf n fmt args).ret = (sprintf buf fmt args).ret ∧
    (vsnprintf buf n fmt args).ret = (snprintf buf n fmt args).ret ∧
    (vsnprintf buf n fmt args).mem = (snprintf buf n fmt args).mem ∧
    (snprintf buf 4 "%d".toList [.int 123456]).ret = 6 ∧
    (List.range 4).map (snprintf buf 4 "%d".toList [.int 123456]).mem = ['1', '2', '3', NUL] := by
  have hmem : ∀ (m : Nat) (f : List Char) (a : List Arg) (i : Nat),
      (snprintf buf m f a).mem i =
        if m = 0 then buf i
        else if i = min (render f a).length (m - 1) then NUL
        else if i + 1 < m then ((render f a)[i]?).getD (buf i) else buf i := by
    intro m f a i
    show (vsnprintf buf m f a).mem i = _
    rw [vsnprintf_mem]
    unfold terminate
    by_cases hm : m = 0
    · simp only [hm, if_true, fold_putBounded_mem]
      simp
    · simp only [hm, if_false, Mem.store, fold_putBounded_pos, fold_putBounded_mem]
      simp
  have hren : render "%d".toList [.int 123456] = "123456".toList := by decide
  refine ⟨?_, ?_, ?_, vsnprintf_ret buf n fmt args, ?_, rfl, rfl, ?_, ?_⟩
  · intro i hi
    rw [hmem]
    by_cases hn : n = 0
    · simp [hn]
    · have h1 : i ≠ min (render fmt args).length (n - 1) := by omega
      have h2 : ¬ (i + 1 < n) := by omega
      simp [hn, h1, h2]
  · intro hn
    refine ⟨by omega, ?_⟩
    rw [hmem]
    have h0 : n ≠ 0 := by omega
    simp [h0]
  · intro i hi
    rw [hmem]
    have h0 : n ≠ 0 := by omega
    have h1 : i ≠ min (render fmt args).length (n - 1) := by omega
    have h2 : i + 1 < n := by omega
    have h3 : i < (render fmt args).length := by omega
    simp [h0, h1, h2, List.getElem?_eq_getElem h3]
  · show (vsnprintf buf n fmt args).ret = _
    rw [vsnprintf_ret, sprintf_ret]
  · show (vsnprintf buf 4 _ _).ret = _
    rw [vsnprintf_ret, hren]
    rfl
  · simp only [List.range, List.range.loop, List.map, hmem, hren]
    simp [NUL]

/-- C1 at a concrete call: a buffer of `z` bytes, size 4, format `%d`,
argument 123456. -/
theorem snprintf_contract_witness :
    (snprintf (fun _ => 'z') 4 "%d".toList [.int 123456]).mem 4 = 'z' ∧
      (snprintf (fun _ => 'z') 4 "%d".toList [.int 123456]).mem 3 = NUL ∧
      (snprintf (fun _ => 'z') 4 "%d".toList [.int 123456]).ret = 6 :=
  ⟨(snprintf_contract (fun _ => 'z') 4 "%d".toList [.int 123456]).1 4 (by decide),
   ((snprintf_contract (fun _ => 'z') 4 "%d".toList [.int 123456]).2.1 (by decide)).2,
   (snprintf_contract (fun _ => 'z') 4 "%d".toList [.int 123456]).2.2.2.2.2.2.2.1⟩

/-! ### Scan engine -/

theorem scanConv_failed (st : Scan) (s : Spec) (h0 : st.failed = false)
    (h : (scanConv st s).failed = true) : scanConv st s = st.fail := by
  unfold scanConv at h ⊢
  split_ifs at h ⊢ <;> first
    | rfl
    | (split at h <;> first
        | rfl
        | (split_ifs at h ⊢ <;> first | rfl | simp [h0] at h)
        | simp [Scan.assign, h0] at h)
    | simp [Scan.assign, h0] at h

theorem scanStep_failed (st : Scan) (d : Directive) (h0 : st.failed = false)
    (h : (scanStep st d).failed = true) : scanStep st d = st.fail := by
  cases d with
  | lit c =>
    simp only [scanStep] at h ⊢
    split_ifs at h ⊢
    · simp [h0] at h
    · split at h
      · rfl
      · split_ifs at h ⊢
        · simp [h0] at h
        · rfl
  | conv s => exact scanConv_failed st s h0 h
  | bad => rfl

theorem scanConv_count (st : Scan) (s : Spec) (h : st.count = st.assigned.length) :
    (scanConv st s).count = (scanConv st s).assigned.length := by
  unfold scanConv
  split_ifs <;> first
    | simpa [Scan.fail, Scan.assign] using h
    | (split <;> first
        | simpa [Scan.fail, Scan.assign] using h
        | (split_ifs <;> simpa [Scan.fail, Scan.assign] using h))

theorem scanStep_count (st : Scan) (d : Directive) (h : st.count = st.assigned.length) :
    (scanStep st d).count = (scanStep st d).assigned.length := by
  cases d with
  | lit c =>
    simp only [scanStep]
    split_ifs
    · exact h
    · split
      · exact h
      · split_ifs <;> exact h
  | conv s => exact scanConv_count st s h
  | bad => exact h

theorem scanRun_count (ds : List Directive) (st : Scan) (h : st.count = st.assigned.length) :
    (scanRun ds st).count = (scanRun ds st).assigned.length := by
  induction ds generalizing st with
  | nil => exact h
  | cons d ds ih =>
    unfold scanRun
    split_ifs
    · exact scanStep_count st d h
    · exact ih _ (scanStep_count st d h)

theorem scanRun_cons (d : Directive) (ds : List Directive) (st : Scan) :
    scanRun (d :: ds) st =
      if (scanStep st d).failed then scanStep st d else scanRun ds (scanStep st d) := rfl

theorem scanRun_append (ds1 ds : List Directive) (st : Scan)
    (h : (scanRun ds1 st).failed = false) :
    scanRun (ds1 ++ ds) st = scanRun ds (scanRun ds1 st) := by
  induction ds1 generalizing st with
  | nil => rfl
  | cons d ds1 ih =>
    rw [List.cons_append, scanRun_cons]
    rw [scanRun_cons] at h
    by_cases hf : (scanStep st d).failed = true
    · simp [hf] at h
    · rw [if_neg hf] at h ⊢
      rw [scanRun_cons d ds1 st, if_neg hf]
      exact ih _ h

theorem scanRun_stops (ds1 ds2 : List Directive) (d : Directive) (st : Scan)
    (h1 : (scanRun ds1 st).failed = false)
    (h2 : (scanStep (scanRun ds1 st) d).failed = true) :
    scanRun (ds1 ++ d :: ds2) st = (scanRun ds1 st).fail := by
  rw [scanRun_append ds1 (d :: ds2) st h1]
  rw [scanRun_cons, if_pos h2]
  exact scanStep_failed _ d h1 h2

/-- C5: `sscanf` returns the number of conversions it assigned, or `EOF` with
nothing assigned; a scan that meets no failure returns the number of its
assignments; a scan whose directive `d` is the first to fail, after the
directives `ds1` matched, leaves what `ds1` assigned and returns that count,
or `EOF` when `ds1` assigned nothing; `sscanf("42 3.5 hi", "%d %f %s")`
returns 3 and stores 42, 3.5 and "hi". -/
theorem sscanf_count (str fmt : List Char) :
    ((sscanf str fmt).ret = ((sscanf str fmt).assigned.length : Int) ∨
      ((sscanf str fmt).ret = EOF ∧ (sscanf str fmt).assigned = [])) ∧
    ((scanRun (directives fmt) ⟨str, [], 0, false⟩).failed = false →
      (sscanf str fmt).ret = ((sscanf str fmt).assigned.length : Int)) ∧
    (∀ (ds1 ds2 : List Directive) (d : Directive), directives fmt = ds1 ++ d :: ds2 →
      (scanRun ds1 ⟨str, [], 0, false⟩).failed = false →
      (scanStep (scanRun ds1 ⟨str, [], 0, false⟩) d).failed = true →
      (sscanf str fmt).assigned = (scanRun ds1 ⟨str, [], 0, false⟩).assigned ∧
      (sscanf str fmt).ret =
        if (scanRun ds1 ⟨str, [], 0, false⟩).assigned = [] then EOF
        else ((scanRun ds1 ⟨str, [], 0, false⟩).assigned.length : Int)) ∧
    EOF < 0 ∧
    sscanf "42 3.5 hi".toList "%d %f %s".toList =
      ⟨3, [.int 42, .flt ⟨false, 35, 1⟩, .str "hi".toList]⟩ ∧
    sscanf "42 x".toList "%d %d".toList = ⟨1, [.int 42]⟩ ∧
    sscanf "x".toList "%d".toList = ⟨EOF, []⟩ := by
  have hc : ∀ ds, (scanRun ds ⟨str, [], 0, false⟩).count =
      (scanRun ds ⟨str, [], 0, false⟩).assigned.length :=
    fun ds => scanRun_count ds _ rfl
  refine ⟨?_, ?_, ?_, by decide, by decide, by decide, by decide⟩
  · unfold sscanf Scan.result
    by_cases h : (scanRun (directives fmt) ⟨str, [], 0, false⟩).failed = true ∧
        (scanRun (directives fmt) ⟨str, [], 0, false⟩).count = 0
    · right
      have h3 := hc (directives fmt)
      rw [h.2] at h3
      exact ⟨by simp [h], List.length_eq_zero.mp h3.symm⟩
    · left
      show (if _ then _ else _) = _
      rw [if_neg h, hc]
  · intro h
    unfold sscanf Scan.result
    simp [h, hc]
  · intro ds1 ds2 d hd h1 h2
    unfold sscanf Scan.result
    rw [hd, scanRun_stops ds1 ds2 d _ h1 h2]
    refine ⟨rfl, ?_⟩
    simp only [Scan.fail, true_and, hc, List.length_eq_zero]

/-- C5 at a concrete call: in `sscanf("42 x", "%d %d")` the second conversion
is the first directive to fail; the call returns 1 and keeps the 42. -/
theorem sscanf_count_witness :
    (sscanf "42 x".toList "%d %d".toList).assigned = [.int 42] ∧
      (sscanf "42 x".toList "%d %d".toList).ret = 1 :=
  have h := (sscanf_count "42 x".toList "%d %d".toList).2.2.1
    [.conv ⟨Flags.empty, .absent, .absent, .dflt, 'd'⟩, .lit ' '] []
    (.conv ⟨Flags.empty, .absent, .absent, .dflt, 'd'⟩) (by decide) (by decide) (by decide)
  ⟨h.1.trans (by decide), h.2.trans (by decide)⟩

/-! ### Digits: rendering and scanning are inverse -/

theorem digitVal_digitChar (upper : Bool) (d : Nat) (h : d < 16) :
    digitVal (digitChar upper d) = some d := by
  interval_cases d <;> cases upper <;> decide

theorem digitChar_plain (upper : Bool) (d : Nat) (h : d < 16) :
    digitChar upper d ≠ '-' ∧ digitChar upper d ≠ '+' ∧ digitChar upper d ≠ 'x' ∧
      digitChar upper d ≠ 'X' ∧ digitChar upper d ≠ NUL ∧ digitChar upper d ≠ '.' ∧
      isSpace (digitChar upper d) = false := by
  interval_cases d <;> cases upper <;> decide

theorem digitChar_zero_iff (upper : Bool) (d : Nat) (h : d < 16) :
    digitChar upper d = '0' ↔ d = 0 := by
  interval_cases d <;> cases upper <;> decide

theorem digitsFuel_ne_nil (base : Nat) (upper : Bool) (fuel n : Nat) :
    digitsFuel base upper fuel n ≠ [] := by
  cases fuel with
  | zero => simp [digitsFuel]
  | succ f =>
    unfold digitsFuel
    split_ifs <;> simp

theorem digitsFuel_mem (base : Nat) (hb : 0 < base) (upper : Bool) (fuel n : Nat) (c : Char)
    (hc : c ∈ digitsFuel base upper fuel n) : ∃ d, d < base ∧ c = digitChar upper d := by
  induction fuel generalizing n with
  | zero =>
    simp only [digitsFuel, List.mem_singleton] at hc
    exact ⟨n % base, Nat.mod_lt _ hb, hc⟩
  | succ f ih =>
    unfold digitsFuel at hc
    split_ifs at hc with h
    · simp only [List.mem_singleton] at hc
      exact ⟨n, h, hc⟩
    · rw [List.mem_append] at hc
      rcases hc with hc | hc
      · exact ih _ hc
      · simp only [List.mem_singleton] at hc
        exact ⟨n % base, Nat.mod_lt _ hb, hc⟩

theorem scanNum_digitsFuel (base : Nat) (hb2 : 2 ≤ base) (hb16 : base ≤ 16) (upper : Bool)
    (fuel n acc k : Nat) (rest : List Char) (hf : n ≤ fuel) :
    scanNum base acc k (digitsFuel base upper fuel n ++ rest) =
      scanNum base (acc * base ^ (digitsFuel base upper fuel n).length + n)
        (k + (digitsFuel base upper fuel n).length) rest := by
  induction fuel generalizing n acc k rest with
  | zero =>
    have hn : n = 0 := by omega
    subst hn
    have h0 : digitVal (digitChar upper 0) = some 0 := digitVal_digitChar upper 0 (by omega)
    have hb : 0 < base := by omega
    simp [digitsFuel, scanNum, h0, hb]
  | succ f ih =>
    unfold digitsFuel
    split_ifs with h
    · have h0 : digitVal (digitChar upper n) = some n := digitVal_digitChar upper n (by omega)
      simp [scanNum, h0, h]
    · have hd : n / base ≤ f := by
        have h1 : n / base < n := Nat.div_lt_self (by omega) (by omega)
        omega
      have hm : n % base < base := Nat.mod_lt _ (by omega)
      have h0 : digitVal (digitChar upper (n % base)) = some (n % base) :=
        digitVal_digitChar upper _ (by omega)
      rw [List.append_assoc, ih (n / base) acc k _ hd]
      simp only [List.singleton_append, scanNum, h0, hm, if_true, List.length_append,
        List.length_singleton]
      have e : (acc * base ^ (digitsFuel base upper f (n / base)).length + n / base) * base +
          n % base = acc * base ^ ((digitsFuel base upper f (n / base)).length + 1) + n := by
        have := Nat.div_add_mod n base
        rw [pow_succ]
        nlinarith [Nat.div_add_mod n base]
      rw [e, Nat.add_assoc]
      rfl

theorem scanNum_natDigits (base : Nat) (hb2 : 2 ≤ base) (hb16 : base ≤ 16) (upper : Bool)
    (n : Nat) (rest : List Char) :
    scanNum base 0 0 (natDigits base upper n ++ rest) =
      scanNum base n (natDigits base upper n).length rest := by
  unfold natDigits
  rw [scanNum_digitsFuel base hb2 hb16 upper n n 0 0 rest (le_refl n)]
  simp

theorem scanNum_nil (base acc k : Nat) : scanNum base acc k [] = (acc, k, []) := rfl

theorem scanNum_stop (base acc k : Nat) (c : Char) (cs : List Char) (h : digitVal c = none) :
    scanNum base acc k (c :: cs) = (acc, k, c :: cs) := by
  simp [scanNum, h]

theorem natDigits_ne_nil (base : Nat) (upper : Bool) (n : Nat) : natDigits base upper n ≠ [] :=
  digitsFuel_ne_nil base upper n n

theorem natDigits_length_pos (base : Nat) (upper : Bool) (n : Nat) :
    0 < (natDigits base upper n).length :=
  List.length_pos.mpr (natDigits_ne_nil base upper n)

theorem natDigits_zero (base : Nat) (upper : Bool) :
    natDigits base upper 0 = ['0'] := by
  simp [natDigits, digitsFuel, Nat.zero_mod]
  cases upper <;> decide

theorem digitsFuel_head (base : Nat) (hb2 : 2 ≤ base) (hb16 : base ≤ 16) (upper : Bool)
    (fuel n : Nat) (hf : n ≤ fuel) (hn : n ≠ 0) :
    (digitsFuel base upper fuel n).head? ≠ some '0' := by
  induction fuel generalizing n with
  | zero => omega
  | succ f ih =>
    unfold digitsFuel
    split_ifs with h
    · simp only [List.head?_cons, ne_eq, Option.some.injEq]
      rw [digitChar_zero_iff upper n (by omega)]
      exact hn
    · have hd : n / base ≤ f := by
        have h1 : n / base < n := Nat.div_lt_self (by omega) (by omega)
        omega
      have hq : n / base ≠ 0 := by
        have : 0 < n / base := Nat.div_pos (by omega) (by omega)
        omega
      have := ih (n / base) hd hq
      rw [List.head?_append_of_ne_nil _ (digitsFuel_ne_nil _ _ _ _)]
      exact this

/-! ### One plain conversion: what the engines do -/

theorem directives_plain (len : LenMod) (c : Char)
    (hc : c ∈ ['d', 'i', 'u', 'o', 'x', 'X', 'f']) :
    directives (plainFormat len c) = [.conv ⟨Flags.empty, .absent, .absent, len, c⟩] := by
  simp only [List.mem_cons, List.mem_singleton, List.not_mem_nil, or_false] at hc
  rcases hc with h | h | h | h | h | h | h <;> subst h <;> cases len <;> decide

theorem render_single (len : LenMod) (c : Char) (a : Arg) (cs : List Char)
    (h1 : c ≠ '%') (h2 : c ≠ 'n') (h3 : isValueConv c = true)
    (h4 : renderValue c Flags.empty 0 none len a = some cs) :
    ([Directive.conv ⟨Flags.empty, .absent, .absent, len, c⟩].foldl
      (step (fun (l : List Char) x => l ++ [x])) ⟨[], 0, [a], []⟩).sink = cs := by
  simp [step, stepConv, resolveWidth, resolvePrec, h1, h2, h3, h4, Engine.emit, foldl_snoc]

theorem sscanf_single (str fmt : List Char) (s : Spec) (h : directives fmt = [.conv s]) :
    sscanf str fmt = (scanConv ⟨str, [], 0, false⟩ s).result := by
  unfold sscanf
  rw [h, scanRun_cons]
  split_ifs <;> rfl

theorem layout_plain (zeroOk : Bool) (head body : List Char) :
    layout Flags.empty 0 zeroOk head body = head ++ body := by
  simp [layout, Flags.empty, pad]

theorem zeroExtend_zero (ds : List Char) : zeroExtend 0 ds = ds := by
  simp [zeroExtend, pad]

theorem hexMarked_digits (base : Nat) (hb : 0 < base) (hb16 : base ≤ 16) (upper : Bool) (n : Nat) :
    hexMarked (natDigits base upper n) = false := by
  match h : natDigits base upper n with
  | [] => rfl
  | [_] => rfl
  | [_, _] => rfl
  | c0 :: c1 :: c2 :: tl =>
    have hm : c1 ∈ natDigits base upper n := by rw [h]; simp
    obtain ⟨d, hd, hc⟩ := digitsFuel_mem base hb upper n n c1 hm
    have hp := digitChar_plain upper d (by omega)
    rw [← hc] at hp
    simp [hexMarked, hp.2.2.1, hp.2.2.2.1]

theorem scanMagnitude_natDigits (c : Char) (base : Nat) (hb2 : 2 ≤ base) (hb16 : base ≤ 16)
    (upper : Bool) (n : Nat) (hbase : scanBase c (natDigits base upper n) = base) :
    scanMagnitude c (natDigits base upper n) = some (n, (natDigits base upper n).length) := by
  have hs : scanNum base 0 0 (natDigits base upper n) = (n, (natDigits base upper n).length, []) := by
    have := scanNum_natDigits base hb2 hb16 upper n []
    rwa [List.append_nil, scanNum_nil] at this
  have hl := natDigits_length_pos base upper n
  unfold scanMagnitude
  rw [hexMarked_digits base (by omega) hb16 upper n, hbase, hs]
  have hl' : (natDigits base upper n).length ≠ 0 := by omega
  simp [hl']

theorem natDigits_head_plain (base : Nat) (hb : 0 < base) (hb16 : base ≤ 16) (upper : Bool)
    (n : Nat) : ∃ c tl, natDigits base upper n = c :: tl ∧ c ≠ '-' ∧ c ≠ '+' ∧
      isSpace c = false := by
  match h : natDigits base upper n with
  | [] => exact absurd h (natDigits_ne_nil base upper n)
  | c :: tl =>
    have hm : c ∈ natDigits base upper n := by rw [h]; simp
    obtain ⟨d, hd, hc⟩ := digitsFuel_mem base hb upper n n c hm
    have hp := digitChar_plain upper d (by omega)
    rw [← hc] at hp
    exact ⟨c, tl, rfl, hp.1, hp.2.1, hp.2.2.2.2.2.2⟩

theorem scanInt_natDigits (c : Char) (base : Nat) (hb2 : 2 ≤ base) (hb16 : base ≤ 16)
    (upper : Bool) (n : Nat) (hbase : scanBase c (natDigits base upper n) = base) :
    scanInt c (natDigits base upper n) = some ((n : Int), (natDigits base upper n).length) := by
  obtain ⟨c0, tl, h, h1, h2, _⟩ := natDigits_head_plain base (by omega) hb16 upper n
  have hs : scanSign (natDigits base upper n) = (false, 0, natDigits base upper n) := by
    rw [h]; simp [scanSign, h1, h2]
  unfold scanInt
  rw [hs]
  simp only [scanMagnitude_natDigits c base hb2 hb16 upper n hbase]
  simp

theorem scanInt_neg_natDigits (c : Char) (base : Nat) (hb2 : 2 ≤ base) (hb16 : base ≤ 16)
    (upper : Bool) (n : Nat) (hbase : scanBase c (natDigits base upper n) = base) :
    scanInt c ('-' :: natDigits base upper n) =
      some (-(n : Int), (natDigits base upper n).length + 1) := by
  have hs : scanSign ('-' :: natDigits base upper n) = (true, 1, natDigits base upper n) := by
    simp [scanSign]
  unfold scanInt
  rw [hs]
  simp only [scanMagnitude_natDigits c base hb2 hb16 upper n hbase]
  simp [Nat.add_comm]

theorem skipSpace_natDigits (base : Nat) (hb : 0 < base) (hb16 : base ≤ 16) (upper : Bool)
    (n : Nat) (rest : List Char) :
    skipSpace (natDigits base upper n ++ rest) = natDigits base upper n ++ rest := by
  obtain ⟨c0, tl, h, _, _, h3⟩ := natDigits_head_plain base hb hb16 upper n
  rw [h]
  simp [skipSpace, h3]

theorem scanBase_i (n : Nat) :
    scanBase 'i' (natDigits 10 false n) = if n = 0 then 8 else 10 := by
  by_cases hn : n = 0
  · subst hn
    decide
  · have := digitsFuel_head 10 (by omega) (by omega) false n n (le_refl n) hn
    have h : (natDigits 10 false n).head? ≠ some '0' := this
    simp [scanBase, hn, h]

theorem renderInt_plain (signed : Bool) (base : Nat) (upper : Bool) (len : LenMod) (v : Int) :
    renderInt signed base upper Flags.empty 0 none len v =
      (if signed = true ∧ wrapSigned len.bits v < 0 then ['-'] else []) ++
        natDigits base upper
          (if signed = true then (wrapSigned len.bits v).natAbs else wrapUnsigned len.bits v) := by
  have ha : Flags.empty.alt = false := rfl
  have hp : Flags.empty.plus = false := rfl
  have hs : Flags.empty.space = false := rfl
  cases signed <;>
    simp [renderInt, layout_plain, zeroExtend_zero, altMark, signChars, ha, hp, hs]

theorem wrapSigned_id (len : LenMod) (v : Int)
    (h : -(2 ^ (len.bits - 1) : Int) ≤ v ∧ v < 2 ^ (len.bits - 1)) :
    wrapSigned len.bits v = v := by
  unfold wrapSigned
  cases len <;> simp only [LenMod.bits] at h ⊢ <;> norm_num at h ⊢ <;> split_ifs <;> omega

theorem wrapUnsigned_id (len : LenMod) (v : Int) (h : 0 ≤ v ∧ v < 2 ^ len.bits) :
    ((wrapUnsigned len.bits v : Nat) : Int) = v ∧ wrapUnsigned len.bits v = v.toNat := by
  unfold wrapUnsigned
  cases len <;> simp only [LenMod.bits] at h ⊢ <;> norm_num at h ⊢ <;> omega

theorem scanConv_int (str : List Char) (len : LenMod) (c : Char) (v : Int)
    (h1 : isIntConv c = true) (h2 : c ≠ '%') (h3 : skipSpace str = str)
    (h4 : scanInt c str = some (v, str.length)) :
    (scanConv ⟨str, [], 0, false⟩ ⟨Flags.empty, .absent, .absent, len, c⟩).result =
      ⟨1, [.int (storeInt c len v)]⟩ := by
  simp [scanConv, h1, h2, h3, h4, window, Scan.assign, Scan.result]

theorem scanInt_i (n : Nat) :
    scanInt 'i' (natDigits 10 false n) = some ((n : Int), (natDigits 10 false n).length) ∧
      scanInt 'i' ('-' :: natDigits 10 false n) =
        some (-(n : Int), (natDigits 10 false n).length + 1) := by
  by_cases hn : n = 0
  · subst hn
    decide
  · have hb : scanBase 'i' (natDigits 10 false n) = 10 := by
      rw [scanBase_i]; simp [hn]
    exact ⟨scanInt_natDigits 'i' 10 (by omega) (by omega) false n hb,
      scanInt_neg_natDigits 'i' 10 (by omega) (by omega) false n hb⟩

theorem roundtrip_signed (len : LenMod) (c : Char) (v : Int) (hc : c = 'd' ∨ c = 'i')
    (hv : -(2 ^ (len.bits - 1) : Int) ≤ v ∧ v < 2 ^ (len.bits - 1)) :
    (scanConv ⟨renderInt true 10 false Flags.empty 0 none len v, [], 0, false⟩
      ⟨Flags.empty, .absent, .absent, len, c⟩).result = ⟨1, [.int v]⟩ := by
  have hw := wrapSigned_id len v hv
  have hic : isIntConv c = true := by rcases hc with h | h <;> subst h <;> decide
  have hne : c ≠ '%' := by rcases hc with h | h <;> subst h <;> decide
  have hst : ∀ x : Int, (-(2 ^ (len.bits - 1) : Int) ≤ x ∧ x < 2 ^ (len.bits - 1)) →
      storeInt c len x = x := by
    intro x hx
    unfold storeInt
    rw [if_pos hc]
    exact wrapSigned_id len x hx
  have htok : scanInt c (natDigits 10 false v.natAbs) =
        some ((v.natAbs : Int), (natDigits 10 false v.natAbs).length) ∧
      scanInt c ('-' :: natDigits 10 false v.natAbs) =
        some (-(v.natAbs : Int), (natDigits 10 false v.natAbs).length + 1) := by
    rcases hc with h | h
    · subst h
      have hb : scanBase 'd' (natDigits 10 false v.natAbs) = 10 := by simp [scanBase]
      exact ⟨scanInt_natDigits 'd' 10 (by omega) (by omega) false _ hb,
        scanInt_neg_natDigits 'd' 10 (by omega) (by omega) false _ hb⟩
    · subst h
      exact scanInt_i v.natAbs
  rw [renderInt_plain, hw]
  by_cases hneg : v < 0
  · have e : (-(v.natAbs : Int)) = v := by omega
    simp only [hneg, and_self, if_true, List.singleton_append]
    have := scanConv_int ('-' :: natDigits 10 false v.natAbs) len c (-(v.natAbs : Int)) hic hne
      (by
        have hsp : isSpace '-' = false := by decide
        simp [skipSpace, hsp])
      (by rw [htok.2]; simp)
    rw [this, e, hst v hv]
  · have e : ((v.natAbs : Int)) = v := by omega
    simp only [hneg, and_false, if_false, List.nil_append, if_true]
    have := scanConv_int (natDigits 10 false v.natAbs) len c (v.natAbs : Int) hic hne
      (by
        have := skipSpace_natDigits 10 (by omega) (by omega) false v.natAbs []
        simpa using this)
      (by rw [htok.1])
    rw [this, e, hst v hv]

theorem roundtrip_unsigned (len : LenMod) (c : Char) (base : Nat) (upper : Bool) (v : Int)
    (hb2 : 2 ≤ base) (hb16 : base ≤ 16)
    (hc : c = 'u' ∨ c = 'o' ∨ c = 'x' ∨ c = 'X')
    (hbase : ∀ cs, scanBase c cs = base)
    (hv : 0 ≤ v ∧ v < 2 ^ len.bits) :
    (scanConv ⟨renderInt false base upper Flags.empty 0 none len v, [], 0, false⟩
      ⟨Flags.empty, .absent, .absent, len, c⟩).result = ⟨1, [.int v]⟩ := by
  have hw := wrapUnsigned_id len v hv
  have hic : isIntConv c = true := by rcases hc with h | h | h | h <;> subst h <;> decide
  have hne : c ≠ '%' := by rcases hc with h | h | h | h <;> subst h <;> decide
  have hsigned : ¬ (c = 'd' ∨ c = 'i') := by rcases hc with h | h | h | h <;> subst h <;> decide
  have hst : storeInt c len v = v := by
    unfold storeInt
    rw [if_neg hsigned]
    exact hw.1
  rw [renderInt_plain]
  simp only [Bool.false_eq_true, false_and, if_false, List.nil_append]
  have e : ((wrapUnsigned len.bits v : Nat) : Int) = v := hw.1
  have := scanConv_int (natDigits base upper (wrapUnsigned len.bits v)) len c
    (wrapUnsigned len.bits v : Int) hic hne
    (by
      have := skipSpace_natDigits base (by omega) hb16 upper (wrapUnsigned len.bits v) []
      simpa using this)
    (scanInt_natDigits c base hb2 hb16 upper _ (hbase _))
  rw [this, e, hst]

/-! ### Fixed-point floats: rendering and scanning are inverse -/

theorem digitsFuel_length_le (base : Nat) (hb2 : 2 ≤ base) (upper : Bool) (fuel n k : Nat)
    (hf : n ≤ fuel) (hk : 1 ≤ k) (hn : n < base ^ k) :
    (digitsFuel base upper fuel n).length ≤ k := by
  induction fuel generalizing n k with
  | zero => simpa [digitsFuel] using hk
  | succ f ih =>
    unfold digitsFuel
    split_ifs with h
    · simpa using hk
    · have hd : n / base ≤ f := by
        have h1 : n / base < n := Nat.div_lt_self (by omega) (by omega)
        omega
      have hk2 : 2 ≤ k := by
        by_contra hlt
        have hk1 : k = 1 := by omega
        subst hk1
        simp at hn
        omega
      have hq : n / base < base ^ (k - 1) := by
        rw [Nat.div_lt_iff_lt_mul (by omega)]
        have : base ^ (k - 1) * base = base ^ k := by
          rw [← pow_succ]
          congr 1
          omega
        rw [this]
        exact hn
      have := ih (n / base) (k - 1) hd (by omega) hq
      simp only [List.length_append, List.length_singleton]
      omega

theorem scanNum_pad_zero (j acc k : Nat) (rest : List Char) :
    scanNum 10 acc k (pad '0' j ++ rest) = scanNum 10 (acc * 10 ^ j) (k + j) rest := by
  induction j generalizing acc k with
  | zero => simp [pad]
  | succ j ih =>
    have h0 : digitVal '0' = some 0 := by decide
    have : pad '0' (j + 1) ++ rest = '0' :: (pad '0' j ++ rest) := by
      simp [pad, List.replicate_succ]
    rw [this]
    simp only [scanNum, h0]
    simp only [Nat.zero_lt_succ, Nat.lt_add_one, if_true, Nat.add_zero]
    rw [ih]
    have e1 : acc * 10 * 10 ^ j = acc * 10 ^ (j + 1) := by rw [pow_succ]; ring
    have e2 : k + 1 + j = k + (j + 1) := by omega
    rw [e1, e2]

theorem scanNum_zeroExtend (p x : Nat) (hp : 1 ≤ p) (hx : x < 10 ^ p) :
    scanNum 10 0 0 (zeroExtend p (natDigits 10 false x)) = (x, p, []) ∧
      (zeroExtend p (natDigits 10 false x)).length = p := by
  have hl : (natDigits 10 false x).length ≤ p :=
    digitsFuel_length_le 10 (by omega) false x x p (le_refl x) hp hx
  constructor
  · unfold zeroExtend
    rw [scanNum_pad_zero]
    have : scanNum 10 (0 * 10 ^ (p - (natDigits 10 false x).length))
        (0 + (p - (natDigits 10 false x).length)) (natDigits 10 false x ++ []) = _ :=
      scanNum_digitsFuel 10 (by omega) (by omega) false x x _ _ [] (le_refl x)
    rw [List.append_nil] at this
    rw [this, scanNum_nil]
    have e : p - (natDigits 10 false x).length + (natDigits 10 false x).length = p := by omega
    simp [natDigits] at e ⊢
    exact e
  · simp [zeroExtend, pad]
    omega

theorem normalize_canonical (m s : Nat) (h : s = 0 ∨ m % 10 ≠ 0) : normalize m s = (m, s) := by
  cases s with
  | zero => rfl
  | succ s =>
    have h1 : m % 10 ≠ 0 := by
      rcases h with h | h
      · omega
      · exact h
    simp [normalize, h1]

theorem normalize_shift (m s j : Nat) : normalize (m * 10 ^ j) (s + j) = normalize m s := by
  induction j with
  | zero => simp
  | succ j ih =>
    have h1 : (m * 10 ^ (j + 1)) % 10 = 0 := by
      rw [pow_succ, ← Nat.mul_assoc]
      exact Nat.mul_mod_left _ _
    have h2 : m * 10 ^ (j + 1) / 10 = m * 10 ^ j := by
      rw [pow_succ, ← Nat.mul_assoc]
      exact Nat.mul_div_cancel _ (by omega)
    rw [← Nat.add_assoc]
    simp only [normalize, h1, if_true, h2]
    exact ih

theorem scanFloat_fixed (neg : Bool) (S : Nat) :
    scanFloat ((if neg = true then ['-'] else []) ++
        (natDigits 10 false (S / 10 ^ 6) ++
          '.' :: zeroExtend 6 (natDigits 10 false (S % 10 ^ 6)))) =
      some (⟨neg, (normalize S 6).1, (normalize S 6).2⟩,
        ((if neg = true then ['-'] else []) ++
          (natDigits 10 false (S / 10 ^ 6) ++
            '.' :: zeroExtend 6 (natDigits 10 false (S % 10 ^ 6)))).length) := by
  obtain ⟨hfr, hfl⟩ := scanNum_zeroExtend 6 (S % 10 ^ 6) (by omega) (Nat.mod_lt _ (by positivity))
  have hdot : digitVal '.' = none := by decide
  have hip : scanNum 10 0 0 (natDigits 10 false (S / 10 ^ 6) ++
      '.' :: zeroExtend 6 (natDigits 10 false (S % 10 ^ 6))) =
      (S / 10 ^ 6, (natDigits 10 false (S / 10 ^ 6)).length,
        '.' :: zeroExtend 6 (natDigits 10 false (S % 10 ^ 6))) := by
    rw [scanNum_natDigits 10 (by omega) (by omega), scanNum_stop _ _ _ _ _ hdot]
  obtain ⟨c0, tl, h, h1, h2, _⟩ := natDigits_head_plain 10 (by omega) (by omega) false (S / 10 ^ 6)
  have hs : scanSign ((if neg = true then ['-'] else []) ++
      (natDigits 10 false (S / 10 ^ 6) ++
        '.' :: zeroExtend 6 (natDigits 10 false (S % 10 ^ 6)))) =
      (neg, (if neg = true then 1 else 0), natDigits 10 false (S / 10 ^ 6) ++
        '.' :: zeroExtend 6 (natDigits 10 false (S % 10 ^ 6))) := by
    cases neg
    · simp only [Bool.false_eq_true, if_false, List.nil_append]
      rw [h]
      simp [scanSign, h1, h2]
    · simp [scanSign]
  have hdrop : ('.' :: zeroExtend 6 (natDigits 10 false (S % 10 ^ 6))).drop 7 = [] := by
    apply List.drop_eq_nil_of_le
    rw [List.length_cons, hfl]
  have hM : S / 10 ^ 6 * 10 ^ 6 + S % 10 ^ 6 = S := Nat.div_add_mod' S (10 ^ 6)
  unfold scanFloat
  simp only [hs, hip]
  simp only [scanFraction, if_true, hfr, hdrop, scanExponent, hM]
  have hl := natDigits_length_pos 10 false (S / 10 ^ 6)
  have hne : ¬ ((natDigits 10 false (S / 10 ^ 6)).length + 6 = 0) := by omega
  simp only [hne, if_false, decOf]
  simp only [le_refl, if_true, Int.toNat_zero, Nat.zero_sub, pow_zero, Nat.mul_one, Nat.sub_zero,
    List.length_append, List.length_cons, hfl, Nat.add_zero]
  cases neg <;> simp
  omega

theorem roundtrip_float (v : Dec) (hv : v.exactAt 6) :
    (scanConv ⟨renderFloat 'f' Flags.empty 0 none v, [], 0, false⟩
      ⟨Flags.empty, .absent, .absent, .dflt, 'f'⟩).result = ⟨1, [.flt v]⟩ := by
  obtain ⟨h6, hcan⟩ := hv
  have hp : Flags.empty.plus = false := rfl
  have hsp : Flags.empty.space = false := rfl
  have ha : Flags.empty.alt = false := rfl
  have hS : v.scaled 6 = v.mant * 10 ^ (6 - v.scale) := by simp [Dec.scaled, h6]
  have hren : renderFloat 'f' Flags.empty 0 none v =
      (if v.neg = true then ['-'] else []) ++
        (natDigits 10 false (v.scaled 6 / 10 ^ 6) ++
          '.' :: zeroExtend 6 (natDigits 10 false (v.scaled 6 % 10 ^ 6))) := by
    simp [renderFloat, layout_plain, signChars, fixedDigits, fractionChars, hp, hsp, ha]
  have hnorm : normalize (v.scaled 6) 6 = (v.mant, v.scale) := by
    rw [hS]
    have := normalize_shift v.mant v.scale (6 - v.scale)
    have e : v.scale + (6 - v.scale) = 6 := by omega
    rw [e] at this
    rw [this, normalize_canonical _ _ hcan]
  have htok := scanFloat_fixed v.neg (v.scaled 6)
  rw [hnorm] at htok
  rw [← hren] at htok
  have hskip : skipSpace (renderFloat 'f' Flags.empty 0 none v) =
      renderFloat 'f' Flags.empty 0 none v := by
    rw [hren]
    cases v.neg
    · simp only [Bool.false_eq_true, if_false, List.nil_append]
      exact skipSpace_natDigits 10 (by omega) (by omega) false _ _
    · have hsp : isSpace '-' = false := by decide
      simp [skipSpace, hsp]
  have h1 : isIntConv 'f' = false := by decide
  have h2 : isFloatConv 'f' = true := by decide
  simp [scanConv, h1, h2, hskip, htok, window, Scan.assign, Scan.result]

/-! ### The round trip through the caller buffer -/

theorem sprintf_mem (buf : Mem) (fmt : List Char) (args : List Arg) (i : Nat) :
    (sprintf buf fmt args).mem i =
      if i = (render fmt args).length then NUL
      else ((render fmt args)[i]?).getD (buf i) := by
  unfold sprintf
  simp only [(vformat_sim putUnbounded ⟨buf, 0⟩ fmt args).1, Mem.store, fold_putUnbounded_pos,
    fold_putUnbounded_mem]
  simp

theorem cstring_of (l : List Char) (m : Mem) (i fuel : Nat) (hn : ∀ c ∈ l, c ≠ NUL)
    (hm : ∀ j, j < l.length → l[j]? = some (m (i + j))) (hz : m (i + l.length) = NUL)
    (hf : l.length < fuel) : cstring m fuel i = l := by
  induction l generalizing i fuel with
  | nil =>
    cases fuel with
    | zero => simp at hf
    | succ k => simpa [cstring] using hz
  | cons c cs ih =>
    cases fuel with
    | zero => simp at hf
    | succ k =>
      have h0 : m i = c := by
        have := hm 0 (by simp)
        simpa using this.symm
      have hc : c ≠ NUL := hn c (by simp)
      have hrest : cstring m k (i + 1) = cs := by
        apply ih
        · intro x hx
          exact hn x (by simp [hx])
        · intro j hj
          have := hm (j + 1) (by simpa using hj)
          simpa [Nat.add_assoc, Nat.add_comm 1 j] using this
        · simpa [Nat.add_assoc, Nat.add_comm 1] using hz
        · simpa using hf
      simp [cstring, h0, hc, hrest]

theorem sprintf_cstring (buf : Mem) (fmt : List Char) (args : List Arg) (fuel : Nat)
    (hn : ∀ c ∈ render fmt args, c ≠ NUL) (hf : (render fmt args).length < fuel) :
    cstring (sprintf buf fmt args).mem fuel 0 = render fmt args := by
  apply cstring_of _ _ _ _ hn
  · intro j hj
    rw [sprintf_mem]
    have : j ≠ (render fmt args).length := by omega
    simp [this, List.getElem?_eq_getElem hj]
  · rw [sprintf_mem]
    simp
  · exact hf

theorem roundtrip_of (buf : Mem) (len : LenMod) (c : Char) (a : Arg) (fuel : Nat)
    (rendered : List Char)
    (hdir : directives (plainFormat len c) = [.conv ⟨Flags.empty, .absent, .absent, len, c⟩])
    (h1 : c ≠ '%') (h2 : c ≠ 'n') (h3 : isValueConv c = true)
    (hval : renderValue c Flags.empty 0 none len a = some rendered)
    (hnul : ∀ x ∈ rendered, x ≠ NUL)
    (hscan : (scanConv ⟨rendered, [], 0, false⟩
      ⟨Flags.empty, .absent, .absent, len, c⟩).result = ⟨1, [a]⟩)
    (hfuel : (sprintf buf (plainFormat len c) [a]).ret < (fuel : Int)) :
    sscanf (cstring (sprintf buf (plainFormat len c) [a]).mem fuel 0) (plainFormat len c) =
      ⟨1, [a]⟩ := by
  have hren : render (plainFormat len c) [a] = rendered := by
    unfold render vformat
    rw [hdir]
    exact render_single len c a rendered h1 h2 h3 hval
  rw [sprintf_ret, hren] at hfuel
  rw [sprintf_cstring buf _ _ fuel (by rw [hren]; exact hnul) (by rw [hren]; exact_mod_cast hfuel),
    hren, sscanf_single _ _ _ hdir, hscan]

theorem natDigits_no_nul (base : Nat) (hb : 0 < base) (hb16 : base ≤ 16) (upper : Bool) (n : Nat) :
    ∀ x ∈ natDigits base upper n, x ≠ NUL := by
  intro x hx
  obtain ⟨d, hd, hc⟩ := digitsFuel_mem base hb upper n n x hx
  rw [hc]
  exact (digitChar_plain upper d (by omega)).2.2.2.2.1

theorem renderInt_no_nul (signed : Bool) (base : Nat) (hb : 0 < base) (hb16 : base ≤ 16)
    (upper : Bool) (len : LenMod) (v : Int) :
    ∀ x ∈ renderInt signed base upper Flags.empty 0 none len v, x ≠ NUL := by
  rw [renderInt_plain]
  intro x hx
  rw [List.mem_append] at hx
  rcases hx with hx | hx
  · split_ifs at hx
    · simp only [List.mem_singleton] at hx
      rw [hx]; decide
    · simp at hx
  · exact natDigits_no_nul base hb hb16 upper _ x hx

theorem renderFloat_no_nul (v : Dec) :
    ∀ x ∈ renderFloat 'f' Flags.empty 0 none v, x ≠ NUL := by
  have hp : Flags.empty.plus = false := rfl
  have hsp : Flags.empty.space = false := rfl
  have ha : Flags.empty.alt = false := rfl
  have hren : renderFloat 'f' Flags.empty 0 none v =
      (if v.neg = true then ['-'] else []) ++
        (natDigits 10 false (v.scaled 6 / 10 ^ 6) ++
          '.' :: zeroExtend 6 (natDigits 10 false (v.scaled 6 % 10 ^ 6))) := by
    simp [renderFloat, layout_plain, signChars, fixedDigits, fractionChars, hp, hsp, ha]
  rw [hren]
  intro x hx
  simp only [List.mem_append, List.mem_cons, zeroExtend, pad, List.mem_replicate] at hx
  rcases hx with hx | hx | hx | hx | hx
  · split_ifs at hx
    · simp only [List.mem_singleton] at hx
      rw [hx]; decide
    · simp at hx
  · exact natDigits_no_nul 10 (by omega) (by omega) false _ x hx
  · rw [hx]; decide
  · rw [hx.2]; decide
  · exact natDigits_no_nul 10 (by omega) (by omega) false _ x hx

theorem front_length (data : List Char) (off : Nat) : (front data off).length = off := by
  simp [front]
  omega

theorem front_of_le (data : List Char) (off : Nat) (h : off ≤ data.length) :
    front data off = data.take off := by
  have : off - data.length = 0 := by omega
  simp [front, this]

theorem overwrite_nil (data : List Char) (off : Nat) : overwrite data off [] = data := by
  simp [overwrite]

theorem overwrite_length_ge (data : List Char) (off : Nat) (bs : List Char) (h : bs ≠ []) :
    off + bs.length ≤ (overwrite data off bs).length := by
  simp [overwrite, h, front_length]

theorem overwrite_append (data : List Char) (off : Nat) (a b : List Char) :
    overwrite (overwrite data off a) (off + a.length) b = overwrite data off (a ++ b) := by
  by_cases ha : a = []
  · subst ha
    simp [overwrite_nil]
  by_cases hb : b = []
  · subst hb
    simp [overwrite_nil]
  have hlen := overwrite_length_ge data off a ha
  have hab : a ++ b ≠ [] := by simp [ha]
  have hfa : (front data off ++ a).length = off + a.length := by
    simp [front_length]
  have h1 : front (overwrite data off a) (off + a.length) = front data off ++ a := by
    rw [front_of_le _ _ hlen]
    simp only [overwrite, ha, if_false]
    rw [List.append_assoc, ← List.append_assoc (front data off) a, List.take_append_of_le_length
      (by rw [hfa])]
    rw [← hfa, List.take_length]
  have h2 : (overwrite data off a).drop (off + a.length + b.length) =
      data.drop (off + (a ++ b).length) := by
    simp only [overwrite, ha, if_false]
    rw [List.drop_append_eq_append_drop]
    have e1 : (front data off ++ a).drop (off + a.length + b.length) = [] := by
      apply List.drop_eq_nil_of_le
      rw [hfa]; omega
    rw [e1, hfa, List.nil_append, List.drop_drop, List.length_append]
    congr 1
    omega
  simp only [overwrite, hb, hab, if_false] at h1 h2 ⊢
  rw [h1, h2]
  simp [List.append_assoc]

theorem overwrite_read (data : List Char) (off : Nat) (bs : List Char) :
    ((overwrite data off bs).drop off).take bs.length = bs := by
  by_cases hb : bs = []
  · subst hb
    simp
  · simp only [overwrite, hb, if_false]
    rw [List.append_assoc, List.drop_append_eq_append_drop, front_length]
    have e1 : (front data off).drop off = [] := by
      apply List.drop_eq_nil_of_le
      rw [front_length]
    rw [e1]
    simp

theorem granted_pos (k n : Nat) (h : 0 < n) :
    0 < granted (some k) n ∧ granted (some k) n ≤ n := by
  simp [granted]
  omega

theorem write_some (d d' : Desc) (bs : List Char) (n : Nat) (hb : bs ≠ [])
    (h : d.write bs = (some n, d')) :
    0 < n ∧ n ≤ bs.length ∧ d'.data = overwrite d.data d.off (bs.take n) ∧
      d'.off = d.off + n ∧ d'.seekable = d.seekable ∧ (d.clean → d'.clean) := by
  have hl : 0 < bs.length := List.length_pos.mpr hb
  unfold Desc.write at h
  split at h
  · rename_i hs
    simp only [Prod.mk.injEq, Option.some.injEq] at h
    obtain ⟨h1, h2⟩ := h
    subst h1 h2
    refine ⟨hl, le_refl _, by simp, rfl, rfl, ?_⟩
    intro hc
    exact hc
  · simp at h
  · rename_i k rest hs
    simp only [Prod.mk.injEq, Option.some.injEq] at h
    obtain ⟨h1, h2⟩ := h
    subst h1 h2
    have hg := granted_pos k bs.length hl
    refine ⟨hg.1, hg.2, rfl, rfl, rfl, ?_⟩
    intro hc o ho
    apply hc
    rw [hs]
    exact List.mem_cons_of_mem _ ho

theorem write_none (d d' : Desc) (bs : List Char) (h : d.write bs = (none, d')) :
    ¬ d.clean := by
  unfold Desc.write at h
  split at h
  · simp at h
  · rename_i rest hs
    intro hc
    exact hc none (by rw [hs]; simp) rfl
  · simp at h

theorem flushLoop_ok (f : Nat) (d : Desc) (bs : List Char) (hf : bs.length ≤ f)
    (h : (flushLoop f d bs).1 = true) :
    (flushLoop f d bs).2.1.data = overwrite d.data d.off bs ∧
      (flushLoop f d bs).2.1.off = d.off + bs.length ∧
      (flushLoop f d bs).2.1.seekable = d.seekable ∧
      (d.clean → (flushLoop f d bs).2.1.clean) := by
  induction f generalizing d bs with
  | zero =>
    have hb : bs = [] := List.length_eq_zero.mp (by omega)
    subst hb
    simp [flushLoop, overwrite_nil]
  | succ f ih =>
    by_cases hb : bs = []
    · subst hb
      simp [flushLoop, overwrite_nil]
    · unfold flushLoop at h ⊢
      simp only [hb, if_false] at h ⊢
      cases hw : d.write bs with
      | mk r d1 =>
        cases r with
        | none =>
          rw [hw] at h
          simp at h
        | some n =>
          rw [hw] at h
          simp only at h ⊢
          obtain ⟨h1, h2, h3, h4, h5, h6⟩ := write_some d d1 bs n hb hw
          have hlen : (bs.drop n).length ≤ f := by
            rw [List.length_drop]; omega
          obtain ⟨i1, i2, i3, i4⟩ := ih d1 (bs.drop n) hlen h
          have ht : (bs.take n).length = n := by
            rw [List.length_take]; omega
          refine ⟨?_, ?_, ?_, ?_⟩
          · rw [i1, h3, h4]
            have := overwrite_append d.data d.off (bs.take n) (bs.drop n)
            rw [ht, List.take_append_drop] at this
            exact this
          · rw [i2, h4, List.length_drop]; omega
          · rw [i3, h5]
          · intro hc
            exact i4 (h6 hc)

theorem flushLoop_clean (f : Nat) (d : Desc) (bs : List Char) (hf : bs.length ≤ f)
    (hc : d.clean) : (flushLoop f d bs).1 = true := by
  induction f generalizing d bs with
  | zero =>
    have hb : bs = [] := List.length_eq_zero.mp (by omega)
    subst hb
    simp [flushLoop]
  | succ f ih =>
    by_cases hb : bs = []
    · subst hb
      simp [flushLoop]
    · unfold flushLoop
      simp only [hb, if_false]
      cases hw : d.write bs with
      | mk r d1 =>
        cases r with
        | none => exact absurd hc (write_none d d1 bs hw)
        | some n =>
          simp only
          obtain ⟨h1, h2, h3, h4, h5, h6⟩ := write_some d d1 bs n hb hw
          exact ih d1 (bs.drop n) (by rw [List.length_drop]; omega) (h6 hc)

/-! ### The buffered write -/

theorem sameSetup_refl (s : Stream) : s.sameSetup s :=
  ⟨rfl, rfl, rfl, rfl, rfl, fun h => h⟩

theorem sameSetup_trans {s t u : Stream} (h1 : s.sameSetup t) (h2 : t.sameSetup u) :
    s.sameSetup u :=
  ⟨h2.1.trans h1.1, h2.2.1.trans h1.2.1, h2.2.2.1.trans h1.2.2.1,
    h2.2.2.2.1.trans h1.2.2.2.1, h2.2.2.2.2.1.trans h1.2.2.2.2.1,
    fun h => h2.2.2.2.2.2 (h1.2.2.2.2.2 h)⟩

theorem fflush_reading (s : Stream) (h : s.writing = false) : fflush s = (0, s) := by
  simp [fflush, h]

theorem fflush_ok (s : Stream) (hw : s.writing = true) (h : (fflush s).1 = 0) :
    (fflush s).2.fd.data = overwrite s.fd.data s.fd.off s.buf ∧
      (fflush s).2.fd.off = s.fd.off + s.buf.length ∧
      (fflush s).2.buf = [] ∧ (fflush s).2.writing = true ∧
      (fflush s).2.err = s.err ∧ s.sameSetup (fflush s).2 := by
  unfold fflush at h ⊢
  by_cases hb : s.buf = []
  · simp [hw, hb, overwrite_nil, sameSetup_refl]
  · simp only [hw, hb, ne_eq, not_false_eq_true, and_self, if_true] at h ⊢
    cases hfl : flushLoop s.buf.length s.fd s.buf with
    | mk ok r =>
      cases r with
      | mk d rest =>
        cases ok with
        | false =>
          rw [hfl] at h
          simp [EOF] at h
        | true =>
          have hok := flushLoop_ok s.buf.length s.fd s.buf (le_refl _) (by rw [hfl])
          rw [hfl] at hok
          simp only at hok
          exact ⟨hok.1, hok.2.1, rfl, rfl, rfl, rfl, rfl, rfl, rfl, hok.2.2.1, hok.2.2.2⟩

theorem fflush_fail (s : Stream) (h : (fflush s).1 ≠ 0) : (fflush s).2.err = true := by
  unfold fflush at h ⊢
  split_ifs at h ⊢ with hc
  · cases hfl : flushLoop s.buf.length s.fd s.buf with
    | mk ok r =>
      cases r with
      | mk d rest =>
        cases ok with
        | false => rfl
        | true =>
          rw [hfl] at h
          simp at h
  · simp at h

theorem fflush_clean (s : Stream) (hc : s.fd.clean) : (fflush s).1 = 0 := by
  unfold fflush
  split_ifs with h
  · have := flushLoop_clean s.buf.length s.fd s.buf (le_refl _) hc
    cases hfl : flushLoop s.buf.length s.fd s.buf with
    | mk ok r =>
      cases r with
      | mk d rest =>
        rw [hfl] at this
        simp only at this
        subst this
        rfl
  · rfl

theorem putByte_false (s : Stream) (c : Char) (h : (putByte s c).1 = false) :
    (putByte s c).2.err = true := by
  unfold putByte at h ⊢
  split_ifs at h ⊢ with hc
  apply fflush_fail
  simpa using h

theorem putByte_clean (s : Stream) (c : Char) (hc : s.fd.clean) : (putByte s c).1 = true := by
  unfold putByte
  split_ifs
  · simp only [decide_eq_true_eq]
    exact fflush_clean _ hc
  · rfl

theorem putByte_true (s : Stream) (c : Char) (hw : s.writing = true)
    (h : (putByte s c).1 = true) :
    (putByte s c).2.writing = true ∧
      (putByte s c).2.image = overwrite s.image (s.fd.off + s.buf.length) [c] ∧
      (putByte s c).2.fd.off + (putByte s c).2.buf.length = s.fd.off + s.buf.length + 1 ∧
      (putByte s c).2.err = s.err ∧ s.sameSetup (putByte s c).2 := by
  have himg : overwrite s.image (s.fd.off + s.buf.length) [c] =
      overwrite s.fd.data s.fd.off (s.buf ++ [c]) := by
    simp only [Stream.image, hw, if_true]
    exact overwrite_append _ _ _ _
  unfold putByte at h ⊢
  split_ifs at h ⊢ with hc
  · simp only [decide_eq_true_eq] at h
    obtain ⟨h1, h2, h3, h4, h5, h6⟩ :=
      fflush_ok { s with buf := s.buf ++ [c], cur := s.buf.length + 1 } hw h
    refine ⟨h4, ?_, ?_, h5, h6⟩
    · rw [himg]
      simp only [Stream.image, h4, if_true, h1, h2, h3, overwrite_nil]
    · rw [h2, h3]
      simp only [List.length_append, List.length_singleton, List.length_nil]
      omega
  · refine ⟨hw, ?_, ?_, rfl, sameSetup_refl s⟩
    · rw [himg]
      simp [Stream.image, hw]
    · simp only [List.length_append, List.length_singleton]
      omega

theorem writeBytes_ok (bs : List Char) (s : Stream) (hw : s.writing = true)
    (h : (writeBytes bs s).2.err = false) :
    (writeBytes bs s).1 = bs.length ∧ (writeBytes bs s).2.writing = true ∧
      (writeBytes bs s).2.image = overwrite s.image (s.fd.off + s.buf.length) bs ∧
      (writeBytes bs s).2.fd.off + (writeBytes bs s).2.buf.length =
        s.fd.off + s.buf.length + bs.length ∧
      s.sameSetup (writeBytes bs s).2 := by
  induction bs generalizing s with
  | nil => simp [writeBytes, hw, overwrite_nil, sameSetup_refl]
  | cons c cs ih =>
    unfold writeBytes at h ⊢
    by_cases hp : (putByte s c).1 = true
    · simp only [hp, if_true] at h ⊢
      obtain ⟨p1, p2, p3, p4, p5⟩ := putByte_true s c hw hp
      obtain ⟨i1, i2, i3, i4, i5⟩ := ih (putByte s c).2 p1 h
      refine ⟨by rw [i1]; simp, i2, ?_, ?_, sameSetup_trans p5 i5⟩
      · rw [i3, p2, p3]
        have := overwrite_append s.image (s.fd.off + s.buf.length) [c] cs
        simpa using this
      · rw [i4, p3]
        simp only [List.length_cons]
        omega
    · rw [if_neg hp] at h
      have := putByte_false s c (by simpa using hp)
      simp only at h
      rw [this] at h
      simp at h

theorem writeBytes_clean (bs : List Char) (s : Stream) (hw : s.writing = true)
    (hc : s.fd.clean) (he : s.err = false) : (writeBytes bs s).2.err = false := by
  induction bs generalizing s with
  | nil => simpa [writeBytes] using he
  | cons c cs ih =>
    have hp := putByte_clean s c hc
    obtain ⟨p1, _, _, p4, p5⟩ := putByte_true s c hw hp
    unfold writeBytes
    simp only [hp, if_true]
    exact ih (putByte s c).2 p1 (p5.2.2.2.2.2 hc) (by rw [p4]; exact he)

/-! ### The buffered read -/

theorem read_some (d d' : Desc) (n : Nat) (bs : List Char) (hn : 0 < n)
    (h : d.read n = (some bs, d')) :
    (∃ m, 0 < m ∧ bs = (d.data.drop d.off).take m) ∧ d'.data = d.data ∧
      d'.off = d.off + bs.length ∧ d'.seekable = d.seekable ∧ (d.clean → d'.clean) := by
  unfold Desc.read at h
  split at h
  · simp only [Prod.mk.injEq, Option.some.injEq] at h
    obtain ⟨h1, h2⟩ := h
    subst h1 h2
    exact ⟨⟨n, hn, rfl⟩, rfl, rfl, rfl, fun hc => hc⟩
  · simp at h
  · rename_i k rest hs
    simp only [Prod.mk.injEq, Option.some.injEq] at h
    obtain ⟨h1, h2⟩ := h
    subst h1 h2
    refine ⟨⟨granted (some k) n, (granted_pos k n hn).1, rfl⟩, rfl, rfl, rfl, ?_⟩
    intro hc o ho
    apply hc
    rw [hs]
    exact List.mem_cons_of_mem _ ho

theorem read_none (d d' : Desc) (n : Nat) (h : d.read n = (none, d')) : ¬ d.clean := by
  unfold Desc.read at h
  split at h
  · simp at h
  · rename_i rest hs
    intro hc
    exact hc none (by rw [hs]; simp) rfl
  · simp at h

theorem take_split (l : List Char) (m : Nat) :
    l = l.take m ++ l.drop (l.take m).length := by
  by_cases h : m ≤ l.length
  · rw [List.length_take, Nat.min_eq_left h, List.take_append_drop]
  · have h1 : l.take m = l := List.take_of_length_le (by omega)
    rw [h1, List.drop_length, List.append_nil]

theorem refill_spec (s : Stream) (hcap : 0 < s.cap) (hb : s.buf.drop s.cur = [])
    (h : (refill s).err = false) :
    s.ahead = (refill s).buf ++ (refill s).fd.data.drop (refill s).fd.off ∧
      ((refill s).buf = [] → s.ahead = []) ∧ (refill s).cap = s.cap ∧
      (refill s).fd.data = s.fd.data := by
  unfold refill at h ⊢
  cases hr : s.fd.read s.cap with
  | mk r d =>
    cases r with
    | none =>
      rw [hr] at h
      simp at h
    | some bs =>
      obtain ⟨⟨m, hm, hbs⟩, h2, h3, _, _⟩ := read_some s.fd d s.cap bs hcap hr
      simp only [Stream.ahead, hb, List.nil_append]
      refine ⟨?_, ?_, trivial, h2⟩
      · rw [h2, h3, ← List.drop_drop, hbs]
        exact take_split _ m
      · intro he
        rw [he] at hbs
        have := hbs.symm
        rw [List.take_eq_nil_iff] at this
        rcases this with h0 | h0
        · omega
        · exact h0

theorem getByte_spec (s : Stream) (hcap : 0 < s.cap) (h : (getByte s).2.err = false) :
    (getByte s).1 = s.ahead.head? ∧ (getByte s).2.ahead = s.ahead.tail ∧
      (getByte s).2.cap = s.cap ∧ (getByte s).2.fd.data = s.fd.data := by
  unfold getByte at h ⊢
  cases hb : s.buf.drop s.cur with
  | cons c tl =>
    simp only [Stream.ahead, hb, List.cons_append, List.head?_cons, List.tail_cons, true_and,
      and_true]
    have : s.buf.drop (s.cur + 1) = tl := by
      rw [← List.drop_drop, hb]
      rfl
    rw [this]
  | nil =>
    rw [hb] at h
    simp only at h ⊢
    cases hf : (refill s).buf with
    | cons c tl =>
      rw [hf] at h
      simp only at h ⊢
      obtain ⟨r1, _, r3, r4⟩ := refill_spec s hcap hb h
      rw [hf] at r1
      refine ⟨by rw [r1]; rfl, ?_, r3, r4⟩
      rw [r1]
      simp [Stream.ahead, hf]
    | nil =>
      rw [hf] at h
      simp only at h ⊢
      obtain ⟨r1, r2, r3, r4⟩ := refill_spec s hcap hb h
      have h0 := r2 hf
      refine ⟨by rw [h0]; rfl, ?_, r3, r4⟩
      rw [h0]
      rw [hf, h0] at r1
      simp only [Stream.ahead, hf, List.drop_nil, List.tail_nil]
      exact r1.symm

theorem refill_err (s : Stream) (h : s.err = true) : (refill s).err = true := by
  unfold refill
  split <;> simp [h]

theorem getByte_err (s : Stream) (h : s.err = true) : (getByte s).2.err = true := by
  unfold getByte
  split
  · exact h
  · split
    · exact refill_err s h
    · exact refill_err s h

theorem readBytes_err (n : Nat) (s : Stream) (h : s.err = true) :
    (readBytes n s).2.err = true := by
  induction n generalizing s with
  | zero => exact h
  | succ n ih =>
    unfold readBytes
    split
    · exact ih _ (getByte_err s h)
    · exact getByte_err s h

theorem readBytes_spec (n : Nat) (s : Stream) (hcap : 0 < s.cap)
    (h : (readBytes n s).2.err = false) : (readBytes n s).1 = s.ahead.take n := by
  induction n generalizing s with
  | zero => simp [readBytes]
  | succ n ih =>
    unfold readBytes at h ⊢
    cases hg : (getByte s).1 with
    | some c =>
      rw [hg] at h
      simp only at h ⊢
      have he : (getByte s).2.err = false := by
        by_contra hne
        have := readBytes_err n _ (by simpa using hne)
        rw [this] at h
        simp at h
      obtain ⟨g1, g2, g3, _⟩ := getByte_spec s hcap he
      rw [ih _ (by rw [g3]; exact hcap) h, g2]
      rw [hg] at g1
      cases ha : s.ahead with
      | nil => rw [ha] at g1; simp at g1
      | cons x xs =>
        rw [ha] at g1
        simp only [List.head?_cons, Option.some.injEq] at g1
        simp [g1]
    | none =>
      rw [hg] at h
      simp only at h ⊢
      obtain ⟨g1, _, _, _⟩ := getByte_spec s hcap h
      rw [hg] at g1
      cases ha : s.ahead with
      | nil => simp
      | cons x xs => rw [ha] at g1; simp at g1

theorem refill_clean (s : Stream) (hc : s.fd.clean) :
    (refill s).err = s.err ∧ (refill s).fd.clean := by
  unfold refill
  cases hr : s.fd.read s.cap with
  | mk r d =>
    cases r with
    | none => exact absurd hc (read_none s.fd d s.cap hr)
    | some bs =>
      refine ⟨rfl, ?_⟩
      unfold Desc.read at hr
      split at hr
      · simp only [Prod.mk.injEq, Option.some.injEq] at hr
        rw [← hr.2]
        exact hc
      · simp at hr
      · rename_i k rest hs
        simp only [Prod.mk.injEq, Option.some.injEq] at hr
        rw [← hr.2]
        intro o ho
        apply hc
        rw [hs]
        exact List.mem_cons_of_mem _ ho

theorem getByte_clean (s : Stream) (hc : s.fd.clean) :
    (getByte s).2.err = s.err ∧ (getByte s).2.fd.clean := by
  unfold getByte
  split
  · exact ⟨rfl, hc⟩
  · split
    · exact refill_clean s hc
    · exact refill_clean s hc

theorem readBytes_clean (n : Nat) (s : Stream) (hc : s.fd.clean) :
    (readBytes n s).2.err = s.err := by
  induction n generalizing s with
  | zero => rfl
  | succ n ih =>
    unfold readBytes
    split
    · rw [ih _ (getByte_clean s hc).2, (getByte_clean s hc).1]
    · exact (getByte_clean s hc).1

/-! ### Turning to writing, seeking -/

theorem beginWrite_some (s t : Stream) (h : beginWrite s = some t) :
    t.writing = true ∧ ftell t = ftell s ∧ t.image = s.image ∧ t.err = s.err ∧
      s.sameSetup t := by
  unfold beginWrite at h
  split_ifs at h with h1 h2
  · simp only [Option.some.injEq] at h
    subst h
    exact ⟨h1, rfl, rfl, rfl, sameSetup_refl s⟩
  · simp only [Option.some.injEq] at h
    subst h
    have hw : s.writing = false := by simpa using h1
    refine ⟨rfl, ?_, ?_, rfl, sameSetup_refl s⟩
    · simp [ftell, hw, h2]
    · simp [Stream.image, hw, overwrite_nil]
  · have hw : s.writing = false := by simpa using h1
    unfold Desc.seek at h
    have hne : SEEK_CUR ≠ SEEK_SET := by decide
    simp only [hne, if_false, if_true] at h
    split_ifs at h with h3 h4
    simp only [Option.some.injEq] at h
    subst h
    refine ⟨rfl, ?_, ?_, rfl, ⟨rfl, rfl, rfl, rfl, rfl, fun hc => hc⟩⟩
    · simp only [ftell, hw, List.length_nil]
      simp
      omega
    · simp [Stream.image, hw, overwrite_nil]

theorem beginWrite_wf (s : Stream) (hwf : s.wf) (hs : s.fd.seekable = true) :
    ∃ t, beginWrite s = some t := by
  unfold beginWrite
  split_ifs with h1 h2
  · exact ⟨_, rfl⟩
  · exact ⟨_, rfl⟩
  · have hw : s.writing = false := by simpa using h1
    have hle := hwf.2.2.2.2 hw
    unfold Desc.seek
    have hne : SEEK_CUR ≠ SEEK_SET := by decide
    have h3 : ¬ ((s.fd.off : Int) + -((s.buf.length - s.cur : Nat) : Int) < 0) := by omega
    simp only [hs, hne, if_false, if_true, h3]
    exact ⟨_, rfl⟩

theorem ftell_nonneg (s : Stream) (hwf : s.wf) : 0 ≤ ftell s := by
  unfold ftell
  split_ifs with h
  · omega
  · have hw : s.writing = false := by simpa using h
    have := hwf.2.2.2.2 hw
    omega

theorem fseek_set_ok (s : Stream) (p : Int) (h : (fseek s p SEEK_SET).1 = 0) :
    0 ≤ p ∧ (fseek s p SEEK_SET).2.fd.data = s.image ∧
      (fseek s p SEEK_SET).2.fd.off = p.toNat ∧ (fseek s p SEEK_SET).2.buf = [] ∧
      (fseek s p SEEK_SET).2.cur = 0 ∧ (fseek s p SEEK_SET).2.writing = false ∧
      (fseek s p SEEK_SET).2.err = s.err ∧ s.sameSetup (fseek s p SEEK_SET).2 := by
  have hfl : (fflush s).1 = 0 → (fflush s).2.fd.data = s.image ∧ (fflush s).2.err = s.err ∧
      s.sameSetup (fflush s).2 := by
    intro h0
    by_cases hw : s.writing = true
    · obtain ⟨f1, _, _, _, f5, f6⟩ := fflush_ok s hw h0
      exact ⟨by rw [f1]; simp [Stream.image, hw], f5, f6⟩
    · have hw' : s.writing = false := by simpa using hw
      rw [fflush_reading s hw']
      exact ⟨by simp [Stream.image, hw'], rfl, sameSetup_refl s⟩
  unfold fseek at h ⊢
  simp only [seekTarget, if_true] at h ⊢
  split_ifs at h ⊢ with h1 h2 h3
  · simp [EOF] at h
  · simp [EOF] at h
  · simp [EOF] at h
  · have h0 : (fflush s).1 = 0 := by simpa using h3
    obtain ⟨f1, f2, f3⟩ := hfl h0
    cases hsk : (fflush s).2.fd.seek p SEEK_SET with
    | none =>
      rw [hsk] at h
      simp [EOF] at h
    | some d =>
      simp only
      unfold Desc.seek at hsk
      simp only [if_true] at hsk
      split_ifs at hsk with k1
      simp only [Option.some.injEq] at hsk
      subst hsk
      refine ⟨by omega, f1, by trivial, by trivial, by trivial, by trivial, f2, ?_⟩
      exact ⟨f3.1, f3.2.1, f3.2.2.1, f3.2.2.2.1, f3.2.2.2.2.1, f3.2.2.2.2.2⟩

theorem fseek_set_clean (s : Stream) (p : Int) (hs : s.fd.seekable = true) (hp : 0 ≤ p)
    (hc : s.fd.clean) : (fseek s p SEEK_SET).1 = 0 := by
  have h0 := fflush_clean s hc
  have hsk : (fflush s).2.fd.seekable = true := by
    by_cases hw : s.writing = true
    · rw [(fflush_ok s hw h0).2.2.2.2.2.2.2.2.2.1, hs]
    · have hw' : s.writing = false := by simpa using hw
      rw [fflush_reading s hw', hs]
  unfold fseek
  have hp' : ¬ p < 0 := by omega
  simp only [hs, seekTarget, if_true, hp', if_false, h0, ne_eq, not_true_eq_false,
    Bool.true_eq_false]
  unfold Desc.seek
  simp [hsk, hp']

/-! ### `fwrite`, then `fseek` back, then `fread` -/

theorem fwrite_ok (data : List Char) (size nmemb : Nat) (s : Stream)
    (h : (fwrite data size nmemb s).2.err = false) :
    ∃ P : Nat, ftell s = (P : Int) ∧
      (fwrite data size nmemb s).1 = (data.take (size * nmemb)).length / size ∧
      (fwrite data size nmemb s).2.writing = true ∧
      (fwrite data size nmemb s).2.image = overwrite s.image P (data.take (size * nmemb)) ∧
      s.sameSetup (fwrite data size nmemb s).2 := by
  unfold fwrite at h ⊢
  split_ifs at h ⊢ with hc
  cases hb : beginWrite s with
  | none =>
    rw [hb] at h
    simp at h
  | some s1 =>
    rw [hb] at h
    simp only at h ⊢
    obtain ⟨b1, b2, b3, _, b5⟩ := beginWrite_some s s1 hb
    obtain ⟨w1, w2, w3, _, w5⟩ := writeBytes_ok (data.take (size * nmemb)) s1 b1 h
    refine ⟨s1.fd.off + s1.buf.length, ?_, by rw [w1], w2, by rw [w3, b3],
      sameSetup_trans b5 w5⟩
    rw [← b2]
    simp [ftell, b1]

theorem fwrite_clean (data : List Char) (size nmemb : Nat) (s : Stream) (hwf : s.wf)
    (hw : s.canWrite = true) (hs : s.fd.seekable = true) (hc : s.fd.clean)
    (he : s.err = false) : (fwrite data size nmemb s).2.err = false := by
  obtain ⟨s1, hb⟩ := beginWrite_wf s hwf hs
  obtain ⟨b1, _, _, b4, b5⟩ := beginWrite_some s s1 hb
  unfold fwrite
  simp only [hw, Bool.true_eq_false, if_false, hb]
  exact writeBytes_clean _ s1 b1 (b5.2.2.2.2.2 hc) (by rw [b4]; exact he)

theorem fread_after_seek (n : Nat) (k : Stream) (hcap : 0 < k.cap) (hw : k.writing = false)
    (hb : k.buf = []) (h : (fread 1 n k).2.2.err = false) :
    (fread 1 n k).1 = (k.fd.data.drop k.fd.off).take n ∧
      (fread 1 n k).2.1 = ((k.fd.data.drop k.fd.off).take n).length := by
  unfold fread at h ⊢
  split_ifs at h ⊢ with h1 h2
  · rw [hw] at h2
    simp at h2
  · have hbr : beginRead k = k := by simp [beginRead, hw]
    rw [hbr] at h ⊢
    simp only [Nat.one_mul, Nat.div_one] at h ⊢
    have := readBytes_spec n k hcap h
    rw [this]
    simp [Stream.ahead, hb]

theorem fread_clean (size nmemb : Nat) (k : Stream) (hr : k.canRead = true)
    (hw : k.writing = false) (hc : k.fd.clean) (he : k.err = false) :
    (fread size nmemb k).2.2.err = false := by
  have hbr : beginRead k = k := by simp [beginRead, hw]
  unfold fread
  simp only [hr, hw, Bool.true_eq_false, Bool.false_eq_true, false_and, if_false, hbr]
  rw [readBytes_clean _ k hc, he]

/-- C3: for every stream with a buffer of at least one byte and no error
pending, and every byte sequence `bs` of any length `N`: when `fwrite` meets
no hard error it reports all `N` bytes (and all `nmemb` elements of any size
`size > 0`); when moreover `fseek` back to the position of the write succeeds
and `fread` meets no hard error, `fread` of `N` bytes returns exactly `bs`;
and on a well-formed read-write stream over a seekable descriptor that
reports no hard error, all three calls succeed. -/
theorem fwrite_fread_roundtrip (s : Stream) (bs : List Char) (hcap : 0 < s.cap)
    (herr : s.err = false) :
    ((fwrite bs 1 bs.length s).2.err = false → (fwrite bs 1 bs.length s).1 = bs.length) ∧
    (∀ (data : List Char) (size nmemb : Nat), 0 < size → data.length = size * nmemb →
      (fwrite data size nmemb s).2.err = false → (fwrite data size nmemb s).1 = nmemb) ∧
    ((fwrite bs 1 bs.length s).2.err = false →
      (fseek (fwrite bs 1 bs.length s).2 (ftell s) SEEK_SET).1 = 0 →
      (fread 1 bs.length (fseek (fwrite bs 1 bs.length s).2 (ftell s) SEEK_SET).2).2.2.err
        = false →
      (fread 1 bs.length (fseek (fwrite bs 1 bs.length s).2 (ftell s) SEEK_SET).2).1 = bs ∧
      (fread 1 bs.length (fseek (fwrite bs 1 bs.length s).2 (ftell s) SEEK_SET).2).2.1
        = bs.length) ∧
    (s.wf → s.canRead = true → s.canWrite = true → s.fd.seekable = true → s.fd.clean →
      (fwrite bs 1 bs.length s).2.err = false ∧
      (fseek (fwrite bs 1 bs.length s).2 (ftell s) SEEK_SET).1 = 0 ∧
      (fread 1 bs.length (fseek (fwrite bs 1 bs.length s).2 (ftell s) SEEK_SET).2).2.2.err
        = false) := by
  have htake : bs.take (1 * bs.length) = bs := by simp
  refine ⟨?_, ?_, ?_, ?_⟩
  · intro h
    obtain ⟨P, _, h2, _⟩ := fwrite_ok bs 1 bs.length s h
    rw [h2, htake]
    simp
  · intro data size nmemb hs hl h
    obtain ⟨P, _, h2, _⟩ := fwrite_ok data size nmemb s h
    rw [h2, ← hl, List.take_length, hl]
    exact Nat.mul_div_cancel_left nmemb hs
  · intro h hk hr
    obtain ⟨P, h1, _, _, h4, h5⟩ := fwrite_ok bs 1 bs.length s h
    rw [htake] at h4
    obtain ⟨_, k2, k3, k4, _, k6, _, k8⟩ := fseek_set_ok _ _ hk
    have hcap' : 0 < (fseek (fwrite bs 1 bs.length s).2 (ftell s) SEEK_SET).2.cap := by
      rw [k8.2.2.2.1, h5.2.2.2.1]
      exact hcap
    obtain ⟨r1, r2⟩ := fread_after_seek bs.length _ hcap' k6 k4 hr
    have hoff : (fseek (fwrite bs 1 bs.length s).2 (ftell s) SEEK_SET).2.fd.off = P := by
      rw [k3, h1]
      simp
    rw [k2, h4, hoff, overwrite_read] at r1 r2
    exact ⟨r1, r2⟩
  · intro hwf hr hw hs hc
    have h := fwrite_clean bs 1 bs.length s hwf hw hs hc herr
    obtain ⟨P, h1, _, _, _, h5⟩ := fwrite_ok bs 1 bs.length s h
    have hk := fseek_set_clean (fwrite bs 1 bs.length s).2 (ftell s)
      (by rw [h5.2.2.2.2.1]; exact hs) (ftell_nonneg s hwf) (h5.2.2.2.2.2 hc)
    obtain ⟨_, _, _, _, _, k6, k7, k8⟩ := fseek_set_ok _ _ hk
    refine ⟨h, hk, ?_⟩
    apply fread_clean
    · rw [k8.1, h5.1]; exact hr
    · exact k6
    · exact k8.2.2.2.2.2 (h5.2.2.2.2.2 hc)
    · rw [k7]; exact h

/-- C3 at concrete calls: six bytes through a buffer of four, over a
descriptor that takes short writes, come back as they were written; so do
three bytes through a buffer of `BUFSIZ` bytes, where all three calls
succeed. -/
theorem fwrite_fread_roundtrip_witness :
    (fwrite "squid!".toList 1 6 demoStream).1 = 6 ∧
      (fread 1 6 (fseek (fwrite "squid!".toList 1 6 demoStream).2 (ftell demoStream)
        SEEK_SET).2).1 = "squid!".toList ∧
      (fread 1 3 (fseek (fwrite "ink".toList 1 3 freshStream).2 (ftell freshStream)
        SEEK_SET).2).2.2.err = false ∧
      (fread 1 3 (fseek (fwrite "ink".toList 1 3 freshStream).2 (ftell freshStream)
        SEEK_SET).2).1 = "ink".toList :=
  ⟨(fwrite_fread_roundtrip demoStream "squid!".toList (by decide) (by decide)).1 (by decide),
   ((fwrite_fread_roundtrip demoStream "squid!".toList (by decide) (by decide)).2.2.1
      (by decide) (by decide) (by decide)).1,
   ((fwrite_fread_roundtrip freshStream "ink".toList (by decide) (by decide)).2.2.2
      (by decide) (by decide) (by decide) (by decide) (by decide)).2.2,
   ((fwrite_fread_roundtrip freshStream "ink".toList (by decide) (by decide)).2.2.1
      (by decide) (by decide) (by decide)).1⟩

/-! ### `fseek` and `ftell` -/

theorem write_none_off (d d' : Desc) (bs : List Char) (h : d.write bs = (none, d')) :
    d'.off = d.off := by
  unfold Desc.write at h
  split at h
  · simp at h
  · simp only [Prod.mk.injEq, true_and] at h
    rw [← h]
  · simp at h

theorem flushLoop_pos (f : Nat) (d : Desc) (bs : List Char) (hf : bs.length ≤ f) :
    (flushLoop f d bs).2.1.off + (flushLoop f d bs).2.2.length = d.off + bs.length := by
  induction f generalizing d bs with
  | zero => simp [flushLoop]
  | succ f ih =>
    by_cases hb : bs = []
    · subst hb
      simp [flushLoop]
    · unfold flushLoop
      simp only [hb, if_false]
      cases hw : d.write bs with
      | mk r d1 =>
        cases r with
        | none =>
          simp only
          rw [write_none_off d d1 bs hw]
        | some n =>
          simp only
          obtain ⟨h1, h2, _, h4, _, _⟩ := write_some d d1 bs n hb hw
          rw [ih d1 (bs.drop n) (by rw [List.length_drop]; omega), h4, List.length_drop]
          omega

theorem fflush_ftell (s : Stream) : ftell (fflush s).2 = ftell s := by
  unfold fflush
  split_ifs with hc
  · have hp := flushLoop_pos s.buf.length s.fd s.buf (le_refl _)
    cases hfl : flushLoop s.buf.length s.fd s.buf with
    | mk ok r =>
      cases r with
      | mk d rest =>
        rw [hfl] at hp
        simp only at hp
        cases ok with
        | false =>
          simp only [ftell, hc.1, if_true]
          omega
        | true =>
          have hok := flushLoop_ok s.buf.length s.fd s.buf (le_refl _) (by rw [hfl])
          rw [hfl] at hok
          simp only [ftell, hc.1, if_true, List.length_nil]
          rw [hok.2.1]
          simp
  · rfl

theorem fflush_seekable (s : Stream) (h : (fflush s).1 = 0) :
    (fflush s).2.fd.seekable = s.fd.seekable := by
  by_cases hw : s.writing = true
  · exact (fflush_ok s hw h).2.2.2.2.2.2.2.2.2.1
  · have hw' : s.writing = false := by simpa using hw
    rw [fflush_reading s hw']

end Stdio
